import Mathlib

/-!
Verification of the playersb-site data pipeline core: identity slugs,
multi-source player merging, per-90 metrics, form/value scoring, and the
per-competition fetch loop.  JavaScript strings are modelled as `List Char`,
JavaScript numbers as `ℚ` (the scripts only add, divide, take maxima and
compare, so exact rationals model every computation the claims mention),
absent / non-numeric values as `Option`, and the Unicode environment
functions (`String.prototype.toLowerCase`, `normalize("NFKD")`) as explicit
function parameters constrained by the properties those functions enjoy.
-/

namespace PlayersB

/-- JavaScript strings, as lists of unicode scalars. -/
abbrev Str := List Char

/-- The character class `\s` of a JavaScript regular expression
(ECMAScript WhiteSpace plus LineTerminator). -/
def isJsSpace (c : Char) : Bool :=
  let n := c.toNat
  n = 0x09 || n = 0x0A || n = 0x0B || n = 0x0C || n = 0x0D || n = 0x20 ||
  n = 0xA0 || n = 0x1680 || (0x2000 ≤ n && n ≤ 0x200A) ||
  n = 0x2028 || n = 0x2029 || n = 0x202F || n = 0x205F || n = 0x3000 || n = 0xFEFF

/-- The character class `\w` of a JavaScript regular expression without the
unicode flag: `[A-Za-z0-9_]`. -/
def isWordChar (c : Char) : Bool :=
  let n := c.toNat
  (0x41 ≤ n && n ≤ 0x5A) || (0x61 ≤ n && n ≤ 0x7A) || (0x30 ≤ n && n ≤ 0x39) || n = 0x5F

/-- The class `[a-z0-9-]` kept by `sanitizeId`. -/
def isSlugChar (c : Char) : Bool :=
  let n := c.toNat
  (0x61 ≤ n && n ≤ 0x7A) || (0x30 ≤ n && n ≤ 0x39) || n = 0x2D

/-- Word characters with no upper-case letters: `[a-z0-9_]`. -/
def isLowerWord (c : Char) : Bool :=
  let n := c.toNat
  (0x61 ≤ n && n ≤ 0x7A) || (0x30 ≤ n && n ≤ 0x39) || n = 0x5F

/-- Leading-whitespace removal, one half of `String.prototype.trim`. -/
def trimLeft : Str → Str
  | [] => []
  | c :: cs => if isJsSpace c then trimLeft cs else c :: cs

/-- Trailing-whitespace removal, the other half of `trim`. -/
def trimRight (s : Str) : Str := (trimLeft s.reverse).reverse

/-- `String.prototype.trim`. -/
def trim (s : Str) : Str := trimRight (trimLeft s)

/-- The replace step that collapses every run of hyphens to one hyphen. -/
def collapseDash : Str → Str
  | [] => []
  | [c] => [c]
  | c :: d :: rest =>
    if c = '-' && d = '-' then collapseDash (d :: rest)
    else c :: collapseDash (d :: rest)

/-- Remove one leading hyphen. -/
def dropLeadDash : Str → Str
  | '-' :: t => t
  | t => t

/-- Remove one trailing hyphen. -/
def dropTrailDash (s : Str) : Str := (dropLeadDash s.reverse).reverse

/-- The replace step that removes one leading and one trailing hyphen (the
anchored alternation regex with the global flag matches each at most once). -/
def dropEdgeDash (s : Str) : Str := dropTrailDash (dropLeadDash s)

/-- The replace step that turns each maximal whitespace run into one
hyphen. -/
def spaceRunsToDash : Str → Str
  | [] => []
  | [c] => if isJsSpace c then ['-'] else [c]
  | c :: d :: rest =>
    if isJsSpace c then
      if isJsSpace d then spaceRunsToDash (d :: rest)
      else '-' :: spaceRunsToDash (d :: rest)
    else c :: spaceRunsToDash (d :: rest)

/-- No two adjacent hyphens (the post-state of hyphen-run collapsing). -/
def NoDD (s : Str) : Prop := s.Chain' (fun a b => ¬(a = '-' ∧ b = '-'))

/-- A concrete stand-in for `String.prototype.toLowerCase` used by witnesses:
it sends every word character that is not already lower-case to an
underscore and fixes everything else.  It satisfies exactly the properties
of `toLowerCase` that the idempotence theorems assume. -/
def lowerModel (c : Char) : Char :=
  if isWordChar c && !isLowerWord c then '_' else c

/-- `safeStr` of the scripts: `String(value ?? "").trim()`; `none` models a
nullish value. -/
def safeStr (o : Option Str) : Str := trim (o.getD [])

/-- JavaScript `||` restricted to string operands: an empty (or nullish)
left operand falls through to the right one. -/
def jsOr (a b : Option Str) : Option Str :=
  match a with
  | none => b
  | some s => if s = [] then b else some s

/-- `s || d` where `d` is a default sentinel string. -/
def orDefault (s d : Str) : Str := if s = [] then d else s

/-- `sanitizeId` of sync-players-from-fantasy / generate-fantasy /
fetch-players (where it is also named `sanitizeSlug`): trim, lower-case,
replace every character outside `[a-z0-9-]` with a hyphen, collapse hyphen
runs, drop the edge hyphens.  `low` is `String.prototype.toLowerCase`,
applied per character. -/
def sanitizeId (low : Char → Char) (raw : Str) : Str :=
  dropEdgeDash (collapseDash
    (((trim raw).map low).map (fun c => if isSlugChar c then c else '-')))

/-- `slugify` of merge.mjs: NFKD-normalize, delete every character that is
not a word character, whitespace or a hyphen, trim, lower-case, turn
whitespace runs into hyphens, collapse hyphen runs.  `nfkd` models
`normalize("NFKD")` and `low` models `toLowerCase`. -/
def slugify (nfkd : Str → Str) (low : Char → Char) (s : Str) : Str :=
  collapseDash (spaceRunsToDash
    ((trim ((nfkd s).filter (fun c => isWordChar c || isJsSpace c || c = '-'))).map low))

/-- The sentinel "N/A" used for a missing position. -/
def NA : Str := "N/A".toList

/-- The sentinel "Unknown" used for a missing team. -/
def UNK : Str := "Unknown".toList

/-- A canonical player record as built by the merge step
(sync-players-from-fantasy). -/
@[ext]
structure PlayerRecord where
  id : Str
  name : Str
  position : Str
  team : Str
  minutes : ℚ
  goals : ℚ
  assists : ℚ
  shots : ℚ
  shotsOnTarget : ℚ
deriving DecidableEq

/-- A loosely-typed row from players.json or fantasy.json.  String fields are
`none` when nullish; numeric fields are `none` when nullish or when
`Number(...)` would not be finite (both make `toNumber` take its fallback). -/
structure RawPlayer where
  id : Option Str := none
  name : Option Str := none
  position : Option Str := none
  team : Option Str := none
  minutes : Option ℚ := none
  playedMatches : Option ℚ := none
  minutesEstimate : Option ℚ := none
  goals : Option ℚ := none
  assists : Option ℚ := none
  shots : Option ℚ := none
  shotsOnTarget : Option ℚ := none
deriving DecidableEq

/-- `toNumber(value, fallback)` of sync-players-from-fantasy. -/
def toNumber (v : Option ℚ) (fallback : ℚ) : ℚ := v.getD fallback

/-- The record the existing-players loop of `mergePlayers` builds before
inserting it into the `byId` map. -/
def normExisting (low : Char → Char) (p : RawPlayer) : PlayerRecord where
  id := sanitizeId low ((jsOr p.id p.name).getD [])
  name := safeStr p.name
  position := orDefault (safeStr p.position) NA
  team := orDefault (safeStr p.team) UNK
  minutes := toNumber p.minutes 0
  goals := toNumber p.goals 0
  assists := toNumber p.assists 0
  shots := toNumber p.shots 0
  shotsOnTarget := toNumber p.shotsOnTarget 0

/-- `normalizePlayerFromFantasy` of sync-players-from-fantasy. -/
def normalizePlayerFromFantasy (low : Char → Char) (row : RawPlayer) : PlayerRecord :=
  let playedMatches := toNumber row.playedMatches 0
  let minutesEstimate := toNumber row.minutesEstimate (playedMatches * 90)
  { id := sanitizeId low ((jsOr row.id row.name).getD [])
    name := safeStr row.name
    position := orDefault (safeStr row.position) NA
    team := orDefault (safeStr row.team) UNK
    minutes := minutesEstimate
    goals := toNumber row.goals 0
    assists := toNumber row.assists 0
    shots := toNumber row.shots 0
    shotsOnTarget := toNumber row.shotsOnTarget 0 }

/-- The conflict resolution applied when a fantasy row shares its id with a
record already in the map (the object literal spreading `prev`). -/
def combine (prev next : PlayerRecord) : PlayerRecord where
  id := prev.id
  name := if prev.name = [] then next.name else prev.name
  position := if next.position = NA then prev.position else next.position
  team := if next.team = UNK then prev.team else next.team
  minutes := max prev.minutes next.minutes
  goals := max prev.goals next.goals
  assists := max prev.assists next.assists
  shots := max prev.shots next.shots
  shotsOnTarget := max prev.shotsOnTarget next.shotsOnTarget

/-- A JavaScript `Map` from ids to records, as an insertion-ordered
association list. -/
abbrev PMap := List (Str × PlayerRecord)

/-- `Map.prototype.get`. -/
def mget (m : PMap) (k : Str) : Option PlayerRecord :=
  (m.find? (fun e => e.1 = k)).map (fun e => e.2)

/-- `Map.prototype.set`: updating an existing key keeps its position,
a new key is appended. -/
def mset (m : PMap) (k : Str) (v : PlayerRecord) : PMap :=
  if m.any (fun e => e.1 = k) then
    m.map (fun e => if e.1 = k then (k, v) else e)
  else m ++ [(k, v)]

/-- One step of the existing-players loop of `mergePlayers`. -/
def addExisting (low : Char → Char) (m : PMap) (p : RawPlayer) : PMap :=
  let r := normExisting low p
  if r.id = [] then m else mset m r.id r

/-- One step of the fantasy-rows loop of `mergePlayers`. -/
def addFantasy (low : Char → Char) (m : PMap) (row : RawPlayer) : PMap :=
  let next := normalizePlayerFromFantasy low row
  if next.id = [] ∨ next.name = [] then m
  else
    match mget m next.id with
    | none => mset m next.id next
    | some prev => mset m next.id (combine prev next)

/-- `mergePlayers` of sync-players-from-fantasy.  `le` models the boolean
outcome of the `localeCompare` comparator (the sort is stable, which
`List.mergeSort` models). -/
def mergePlayers (low : Char → Char) (le : Str → Str → Bool)
    (existingPlayers fantasyPlayers : List RawPlayer) : List PlayerRecord :=
  ((fantasyPlayers.foldl (addFantasy low)
      (existingPlayers.foldl (addExisting low) [])).map (fun e => e.2)).mergeSort
    (fun a b => le a.name b.name)

/-- A merged record read back from players.json: every field is present
verbatim. -/
def toRaw (r : PlayerRecord) : RawPlayer where
  id := some r.id
  name := some r.name
  position := some r.position
  team := some r.team
  minutes := some r.minutes
  playedMatches := none
  minutesEstimate := none
  goals := some r.goals
  assists := some r.assists
  shots := some r.shots
  shotsOnTarget := some r.shotsOnTarget

/-- The object written over players.json by the sync script's `main`. -/
structure SyncOut where
  generated_at : Str
  players : List PlayerRecord
deriving DecidableEq

/-- `main` of sync-players-from-fantasy, as a function from the parsed file
contents to the write it performs: `none` means the early return was taken
and players.json is left untouched.  `playersArr` is the `players` field of
players.json when it is an array (`none` otherwise), `fantasyArr` likewise
for fantasy.json. -/
def syncMain (low : Char → Char) (le : Str → Str → Bool)
    (playersArr : Option (List RawPlayer)) (fantasyArr : Option (List RawPlayer))
    (now : Str) : Option SyncOut :=
  let existingPlayers := playersArr.getD []
  let fantasyPlayers := fantasyArr.getD []
  if fantasyPlayers.isEmpty then none
  else some
    { generated_at := now
      players := mergePlayers low le existingPlayers fantasyPlayers }

/-- The worked example of the spec: the existing Kane record. -/
def kaneExisting : RawPlayer where
  id := some ("kane".toList)
  name := some ("Harry Kane".toList)
  position := some ("FW".toList)
  team := some ("Bayern".toList)
  minutes := some 900
  goals := some 10
  assists := some 2
  shots := some 30
  shotsOnTarget := some 15

/-- The worked example of the spec: the incoming Kane feed row. -/
def kaneIncoming : RawPlayer where
  id := some ("kane".toList)
  name := some ("Harry Kane".toList)
  position := some ("FW".toList)
  team := some ("Bayern".toList)
  playedMatches := some 10
  minutesEstimate := some 950
  goals := some 9
  assists := some 3
  shots := some 28
  shotsOnTarget := some 16

/-- The keys of the `byId` map, in insertion order. -/
def keysOf (m : PMap) : List Str := m.map (fun e => e.1)

/-- The values of the `byId` map, in insertion order (`Map.prototype.values`). -/
def valuesOf (m : PMap) : List PlayerRecord := m.map (fun e => e.2)

/-- A JavaScript `Map` never holds a key twice. -/
def NoDupKeys (m : PMap) : Prop := (keysOf m).Nodup

/-- A string unchanged by trimming. -/
def Trimmed (s : Str) : Prop := trim s = s

/-- The invariant of every record the merge map holds: its id came out of
`sanitizeId` and is non-empty, its name is trimmed, and its position and
team are trimmed and non-empty. -/
def GoodRec (low : Char → Char) (r : PlayerRecord) : Prop :=
  (∃ s, r.id = sanitizeId low s) ∧ r.id ≠ [] ∧ Trimmed r.name ∧
  (Trimmed r.position ∧ r.position ≠ []) ∧ (Trimmed r.team ∧ r.team ≠ [])

/-- The invariant of the whole `byId` map: keys are the ids of their
records, every record satisfies `GoodRec`, and keys are unique. -/
def MapInv (low : Char → Char) (m : PMap) : Prop :=
  (∀ e ∈ m, e.1 = e.2.id ∧ GoodRec low e.2) ∧ NoDupKeys m

/-- What one incoming row does to the value currently at its key: first
insertion takes the row itself, later rows are combined in. -/
def stepOpt (o : Option PlayerRecord) (n : PlayerRecord) : PlayerRecord :=
  match o with
  | none => n
  | some v => combine v n

/-- What a whole batch of same-key rows does to the value at that key. -/
def perKey (o : Option PlayerRecord) (L : List PlayerRecord) : Option PlayerRecord :=
  L.foldl (fun acc n => some (stepOpt acc n)) o

/-- Folding a run of rows into a record with `combine`. -/
def combineFold (v : PlayerRecord) (L : List PlayerRecord) : PlayerRecord :=
  L.foldl combine v

/-- The name policy of `combine`, iterated: first non-empty value wins. -/
def nameFold (a : Str) (l : List Str) : Str :=
  l.foldl (fun x y => if x = [] then y else x) a

/-- The position/team policy of `combine`, iterated: last non-sentinel value
wins (`d` is the sentinel). -/
def posFold (d : Str) (a : Str) (l : List Str) : Str :=
  l.foldl (fun x y => if y = d then x else y) a

/-- The normalized incoming rows that are valid (non-empty id and name) and
target key `k`, in batch order. -/
def relRows (low : Char → Char) (k : Str) (B : List RawPlayer) : List PlayerRecord :=
  (B.map (normalizePlayerFromFantasy low)).filter
    (fun n => ¬(n.id = [] ∨ n.name = []) ∧ n.id = k)

/-- The normalized existing records with non-empty id `k`, in array order. -/
def existingRows (low : Char → Char) (k : Str) (A : List RawPlayer) : List PlayerRecord :=
  (A.map (normExisting low)).filter (fun r => ¬ r.id = [] ∧ r.id = k)

/-- The existing-phase value at key `k`: the last existing record with that
id wins (`Map.prototype.set` overwrites). -/
def existingAt (low : Char → Char) (k : Str) (A : List RawPlayer) : Option PlayerRecord :=
  (existingRows low k A).getLast?

/-! ### Per-90 metrics and the form and value scorer (generate-fantasy) -/

/-- A loosely-typed JavaScript value in numeric position: nullish,
present but not a finite number, or a finite number. -/
inductive JsVal
  | missing
  | nonnum
  | num (q : ℚ)
deriving DecidableEq

/-- The nullish-coalescing operator on values in numeric position. -/
def coalesce : JsVal → JsVal → JsVal
  | .missing, b => b
  | a, _ => a

/-- `num` of generate-fantasy: a finite number is kept, anything else
becomes 0. -/
def numOf : JsVal → ℚ
  | .num q => q
  | _ => 0

/-- `per90` of generate-fantasy. -/
def per90 (v m : ℚ) : ℚ := if m > 0 then v / (m / 90) else 0

/-- A row of the players array that the fantasy-page generator scores. -/
structure FantasyRow where
  id : Option Str := none
  name : Option Str := none
  position : Option Str := none
  team : Option Str := none
  competitionName : Option Str := none
  minutes : JsVal := .missing
  minutesEstimate : JsVal := .missing
  goals : JsVal := .missing
  assists : JsVal := .missing
  shots : JsVal := .missing
deriving DecidableEq

/-- The scored figures of one table row of the fantasy page. -/
structure ScoredRow where
  g90 : ℚ
  a90 : ℚ
  s90 : ℚ
  baseScore : ℚ
  difficultyNorm : ℚ
  formScoreRaw : ℚ
  formBoost : ℚ
  formScore : ℚ
  valueScore : ℚ
deriving DecidableEq

/-- Association-list lookup for the standings signal maps. -/
def alookup (m : List (Str × ℚ)) (k : Str) : Option ℚ :=
  (m.find? (fun e => e.1 = k)).map (fun e => e.2)

/-- Association-list `Map.prototype.set` for the standings signal maps. -/
def aset (m : List (Str × ℚ)) (k : Str) (v : ℚ) : List (Str × ℚ) :=
  if m.any (fun e => e.1 = k) then
    m.map (fun e => if e.1 = k then (k, v) else e)
  else m ++ [(k, v)]

/-- `difficultyMin` of generate-fantasy: the minimum of the league
difficulty values, 0 when there are none. -/
def difficultyMinOf (ld : List (Str × ℚ)) : ℚ :=
  match ld.map (fun e => e.2) with
  | [] => 0
  | v :: vs => vs.foldl min v

/-- `difficultyMax` of generate-fantasy: the maximum of the league
difficulty values, 1 when there are none. -/
def difficultyMaxOf (ld : List (Str × ℚ)) : ℚ :=
  match ld.map (fun e => e.2) with
  | [] => 1
  | v :: vs => vs.foldl max v

/-- The per-row computation of generate-fantasy's `rows` map: per-90 rates,
base score, the two normalizers and the composite scores. -/
def scoreRow (low : Char → Char) (leagueDifficulty teamForm : List (Str × ℚ))
    (difficultyMin difficultyMax : ℚ) (p : FantasyRow) : ScoredRow :=
  let mins := numOf (coalesce p.minutes p.minutesEstimate)
  let g90 := per90 (numOf p.goals) mins
  let a90 := per90 (numOf p.assists) mins
  let s90 := per90 (numOf p.shots) mins
  let baseScore := g90 * 4 + a90 * 3 + s90 * (1 / 2)
  let competitionKey := sanitizeId low (p.competitionName.getD [])
  let teamKey := sanitizeId low (p.team.getD [])
  let difficultyRaw := alookup leagueDifficulty competitionKey
  let difficultyNorm :=
    match difficultyRaw with
    | none => 1
    | some raw =>
      if difficultyMax = difficultyMin then 1
      else 85 / 100 + (raw - difficultyMin) / (difficultyMax - difficultyMin) * (3 / 10)
  let formScoreRaw := (alookup teamForm teamKey).getD (1 / 2)
  let formBoost := 85 / 100 + formScoreRaw * (3 / 10)
  { g90 := g90
    a90 := a90
    s90 := s90
    baseScore := baseScore
    difficultyNorm := difficultyNorm
    formScoreRaw := formScoreRaw
    formBoost := formBoost
    formScore := baseScore * difficultyNorm * formBoost
    valueScore := (g90 + a90) * 90 * difficultyNorm }

/-- `parseForm` of generate-fantasy: split the last-5 form string on commas,
trim, drop empties, keep the last five parts, weight W as 1, D as one half
and anything else as 0, and average. -/
def parseForm (formString : Option Str) : Option ℚ :=
  match formString with
  | none => none
  | some s =>
    if s = [] then none
    else
      let parts := ((s.splitOn ',').map trim).filter (fun p => p ≠ [])
      let parts := parts.drop (parts.length - 5)
      if parts = [] then none
      else
        let score := parts.foldl
          (fun acc part =>
            if part = ['W'] then acc + 1
            else if part = ['D'] then acc + 1 / 2
            else acc) 0
        some (score / parts.length)

/-- One row of a standings table as generate-fantasy reads it. -/
structure TableRow where
  teamName : Option Str := none
  points : JsVal := .missing
  playedGames : JsVal := .missing
  form : Option Str := none
deriving DecidableEq

/-- One competition entry of standings.json: its name and the table rows of
all its standings blocks. -/
structure StandingsEntry where
  competitionName : Option Str := none
  tables : List (List TableRow) := []
deriving DecidableEq

/-- The `!= null` guard before each accumulation: a nullish value is
skipped, any other value contributes `Number(value) || 0`. -/
def accumulate (acc : ℚ) (v : JsVal) : ℚ :=
  match v with
  | .missing => acc
  | .nonnum => acc + 0
  | .num q => acc + q

/-- The team-form update of `buildStandingsSignals` for one table row:
`teamForm.set(teamKey, form)` when the team key is non-empty and the form
string parses. -/
def tfStep (low : Char → Char) (tf : List (Str × ℚ)) (row : TableRow) : List (Str × ℚ) :=
  let teamKey := sanitizeId low (row.teamName.getD [])
  match parseForm row.form with
  | some f => if teamKey = [] then tf else aset tf teamKey f
  | none => tf

/-- The body of `buildStandingsSignals` for one competition entry: sum the
points and played games over all table rows, record each team's parsed
form, and record average points per game when the key is non-empty and
games were played. -/
def signalsStep (low : Char → Char) (maps : List (Str × ℚ) × List (Str × ℚ))
    (entry : StandingsEntry) : List (Str × ℚ) × List (Str × ℚ) :=
  let competitionKey := sanitizeId low (entry.competitionName.getD [])
  let rows := entry.tables.flatten
  let totalPoints := rows.foldl (fun acc row => accumulate acc row.points) 0
  let totalGames := rows.foldl (fun acc row => accumulate acc row.playedGames) 0
  let tf := rows.foldl (tfStep low) maps.2
  let ld :=
    if competitionKey ≠ [] ∧ totalGames > 0 then
      aset maps.1 competitionKey (totalPoints / totalGames)
    else maps.1
  (ld, tf)

/-- `buildStandingsSignals` of generate-fantasy: the league-difficulty map
(average points per game per competition) and the team-form map (parsed
last-5 form per team). -/
def buildStandingsSignals (low : Char → Char) (competitions : List StandingsEntry) :
    List (Str × ℚ) × List (Str × ℚ) :=
  competitions.foldl (signalsStep low) ([], [])

/-- The wiring of generate-fantasy's `main`: build the standings signals,
take the minimum and maximum observed league difficulty, and score a row. -/
def mainScore (low : Char → Char) (entries : List StandingsEntry) (p : FantasyRow) : ScoredRow :=
  let maps := buildStandingsSignals low entries
  scoreRow low maps.1 maps.2 (difficultyMinOf maps.1) (difficultyMaxOf maps.1) p

/-! ### fetch-players: record normalization and cleaning -/

/-- A raw row of the free player-data source, with the field aliases
`normalizeRecord` probes. -/
structure SourceRecord where
  id : Option Str := none
  slug : Option Str := none
  code : Option Str := none
  name : Option Str := none
  full_name : Option Str := none
  fullName : Option Str := none
  position : Option Str := none
  pos : Option Str := none
  role : Option Str := none
  team : Option Str := none
  club : Option Str := none
  currentTeam : Option Str := none
  team_name : Option Str := none
  minutes : JsVal := .missing
  mins : JsVal := .missing
  goals : JsVal := .missing
  gls : JsVal := .missing
  assists : JsVal := .missing
  ast : JsVal := .missing
  shots : JsVal := .missing
  sh : JsVal := .missing
  shotsOnTarget : JsVal := .missing
  sot : JsVal := .missing
deriving DecidableEq

/-- `Number(a ?? b ?? 0) || 0` of fetch-players. -/
def numAlias (a b : JsVal) : ℚ := numOf (coalesce a (coalesce b (.num 0)))

/-- `normalizeRecord` of fetch-players. -/
def normalizeRecord (low : Char → Char) (record : SourceRecord) : PlayerRecord :=
  let id0 := sanitizeId low
    ((jsOr record.id (jsOr record.slug (jsOr record.code record.name))).getD [])
  let name := safeStr (jsOr record.name (jsOr record.full_name record.fullName))
  { id := if id0 = [] then sanitizeId low name else id0
    name := name
    position := safeStr (jsOr record.position (jsOr record.pos record.role))
    team := safeStr (jsOr record.team (jsOr record.club (jsOr record.currentTeam record.team_name)))
    minutes := numAlias record.minutes record.mins
    goals := numAlias record.goals record.gls
    assists := numAlias record.assists record.ast
    shots := numAlias record.shots record.sh
    shotsOnTarget := numAlias record.shotsOnTarget record.sot }

/-- `cleanPlayers` of fetch-players: normalize every row, keep only rows
with a non-empty id and name, then default the empty position and team. -/
def cleanPlayers (low : Char → Char) (players : List SourceRecord) : List PlayerRecord :=
  ((players.map (normalizeRecord low)).filter
      (fun p => p.id ≠ [] ∧ p.name ≠ [])).map
    (fun p => { p with position := orDefault p.position NA, team := orDefault p.team UNK })

/-! ### fetch-football-data: the per-competition fetch loop -/

/-- A normalized competition as the fetch loop sees it.  `Season` is the
shape of the opaque `currentSeason` object. -/
structure Competition (Season : Type) where
  id : Option ℤ
  code : Str
  name : Str
  currentSeason : Option Season

/-- The truthiness test `competition?.id` of the loop guard: a nullish or
zero id is falsy. -/
def compHasId {Season : Type} (c : Competition Season) : Bool :=
  match c.id with
  | some n => n ≠ 0
  | none => false

/-- `String(competitionId)`. -/
def intStr (n : ℤ) : Str := (toString n).toList

/-- `competition.name || competition.code || String(competitionId)`. -/
def competitionLabel {Season : Type} (c : Competition Season) (cid : ℤ) : Str :=
  orDefault c.name (orDefault c.code (intStr cid))

/-- One entry of the fixtures output: the competition with its slug, the
matches kept, and the error recorded when the fetch failed.  `M` is the
shape of a normalized match. -/
structure FixSlice (Season M : Type) where
  competition : Competition Season
  slug : Str
  matchCount : ℕ
  matchList : List M
  error : Option Str

/-- One entry of the standings output.  `S` is the shape of a normalized
standings block. -/
structure StandSlice (Season S : Type) where
  competition : Competition Season
  slug : Str
  season : Option Season
  standings : List S
  error : Option Str

/-- A raw scorer entry of the scorers payload. -/
structure ScorerRaw where
  playerId : Option ℤ := none
  playerName : Option Str := none
  playerPosition : Option Str := none
  teamName : Option Str := none
  teamId : Option ℤ := none
  goals : JsVal := .missing
  assists : JsVal := .missing
  playedMatches : JsVal := .missing
  played_matches : JsVal := .missing
deriving DecidableEq

/-- A fantasy-feed player as `normalizeScorer` emits it. -/
structure FPlayer where
  id : Option ℤ
  name : Str
  position : Str
  team : Str
  teamId : Option ℤ
  goals : ℚ
  assists : ℚ
  playedMatches : ℚ
  minutesEstimate : Option ℚ
deriving DecidableEq

/-- `normalizeScorer` of fetch-football-data (the competition tag is carried
by the surrounding slice in this model). -/
def normalizeScorer (scorer : ScorerRaw) : FPlayer :=
  let goals := numOf (coalesce scorer.goals (.num 0))
  let assists := numOf (coalesce scorer.assists (.num 0))
  let playedMatches := numOf (coalesce scorer.playedMatches
    (coalesce scorer.played_matches (.num 0)))
  { id := scorer.playerId
    name := safeStr scorer.playerName
    position := safeStr scorer.playerPosition
    team := safeStr scorer.teamName
    teamId := scorer.teamId
    goals := goals
    assists := assists
    playedMatches := playedMatches
    minutesEstimate := if playedMatches > 0 then some (playedMatches * 90) else none }

/-- The fixtures try block for one competition: a successful fetch yields
the payload's matches (possibly capped by `limitMatches`); a failure is
caught and becomes an error-flagged empty slice.  The `Except` error text
models `err.message || String(err)`. -/
def fixturesFor {Season M : Type} (comp : Competition Season) (slug : Str)
    (limit : Option ℤ) (result : Except Str (Option (List M))) : FixSlice Season M :=
  match result with
  | .ok payload =>
    let ms := payload.getD []
    let ms :=
      match limit with
      | some l => if l > 0 then ms.take l.toNat else ms
      | none => ms
    { competition := comp, slug := slug, matchCount := ms.length, matchList := ms, error := none }
  | .error e =>
    { competition := comp, slug := slug, matchCount := 0, matchList := [], error := some e }

/-- The standings try block for one competition: the payload carries an
optional season and the standings blocks; a failure is caught and becomes
an error-flagged empty slice falling back to the competition's own
season. -/
def standingsFor {Season S : Type} (comp : Competition Season) (slug : Str)
    (result : Except Str (Option Season × Option (List S))) : StandSlice Season S :=
  match result with
  | .ok payload =>
    { competition := comp, slug := slug,
      season := payload.1.or comp.currentSeason,
      standings := payload.2.getD [], error := none }
  | .error e =>
    { competition := comp, slug := slug, season := comp.currentSeason,
      standings := [], error := some e }

/-- The scorers try block for one competition: entries with a name are kept,
a failure is caught and contributes nothing. -/
def scorersFor (result : Except Str (Option (List ScorerRaw))) : List FPlayer :=
  match result with
  | .ok payload => ((payload.getD []).map normalizeScorer).filter (fun e => e.name ≠ [])
  | .error _ => []

/-- The whole loop body for one competition with truthy id `cid`. -/
def fetchCompetition {Season M S : Type} (low : Char → Char) (limit : Option ℤ)
    (fetchM : ℤ → Except Str (Option (List M)))
    (fetchS : ℤ → Except Str (Option Season × Option (List S)))
    (fetchSc : ℤ → Except Str (Option (List ScorerRaw)))
    (comp : Competition Season) (cid : ℤ) :
    FixSlice Season M × StandSlice Season S × List FPlayer :=
  let slug := sanitizeId low (competitionLabel comp cid)
  (fixturesFor comp slug limit (fetchM cid),
   standingsFor comp slug (fetchS cid),
   scorersFor (fetchSc cid))

/-- One iteration of `main`'s competition loop of fetch-football-data: skip
a falsy id, otherwise append this competition's slices to the three output
arrays.  The three fetch functions model the network calls (an
`Except.error` is a thrown and caught fetch failure). -/
def fetchStep {Season M S : Type} (low : Char → Char) (limit : Option ℤ)
    (fetchM : ℤ → Except Str (Option (List M)))
    (fetchS : ℤ → Except Str (Option Season × Option (List S)))
    (fetchSc : ℤ → Except Str (Option (List ScorerRaw)))
    (out : List (FixSlice Season M) × List (StandSlice Season S) × List FPlayer)
    (comp : Competition Season) :
    List (FixSlice Season M) × List (StandSlice Season S) × List FPlayer :=
  match comp.id with
  | some cid =>
    if cid = 0 then out
    else
      let slice := fetchCompetition low limit fetchM fetchS fetchSc comp cid
      (out.1 ++ [slice.1], out.2.1 ++ [slice.2.1], out.2.2 ++ slice.2.2)
  | none => out

/-- `main`'s competition loop of fetch-football-data: sequential, one
competition at a time, starting from empty output arrays. -/
def fetchLoop {Season M S : Type} (low : Char → Char) (limit : Option ℤ)
    (fetchM : ℤ → Except Str (Option (List M)))
    (fetchS : ℤ → Except Str (Option Season × Option (List S)))
    (fetchSc : ℤ → Except Str (Option (List ScorerRaw)))
    (comps : List (Competition Season)) :
    List (FixSlice Season M) × List (StandSlice Season S) × List FPlayer :=
  comps.foldl (fetchStep low limit fetchM fetchS fetchSc) ([], [], [])

/-! ### Theorems -/

/-! Character-class facts. -/

theorem slug_not_space {c : Char} (h : isSlugChar c = true) : isJsSpace c = false := by
  simp only [isSlugChar, Bool.or_eq_true, Bool.and_eq_true, decide_eq_true_eq] at h
  simp only [isJsSpace, Bool.or_eq_false_iff, Bool.and_eq_false_iff,
    decide_eq_false_iff_not, ← Nat.not_le, Decidable.not_not]
  omega

theorem lowerWord_not_space {c : Char} (h : isLowerWord c = true) : isJsSpace c = false := by
  simp only [isLowerWord, Bool.or_eq_true, Bool.and_eq_true, decide_eq_true_eq] at h
  simp only [isJsSpace, Bool.or_eq_false_iff, Bool.and_eq_false_iff,
    decide_eq_false_iff_not, ← Nat.not_le, Decidable.not_not]
  omega

theorem word_not_space {c : Char} (h : isWordChar c = true) : isJsSpace c = false := by
  simp only [isWordChar, Bool.or_eq_true, Bool.and_eq_true, decide_eq_true_eq] at h
  simp only [isJsSpace, Bool.or_eq_false_iff, Bool.and_eq_false_iff,
    decide_eq_false_iff_not, ← Nat.not_le, Decidable.not_not]
  omega

theorem space_not_word {c : Char} (h : isJsSpace c = true) : isWordChar c = false := by
  cases hw : isWordChar c with
  | false => rfl
  | true => rw [word_not_space hw] at h; cases h

theorem slug_to_lowerWord_or_dash {c : Char} (h : isSlugChar c = true) :
    isLowerWord c = true ∨ c = '-' := by
  simp only [isSlugChar, Bool.or_eq_true, Bool.and_eq_true, decide_eq_true_eq] at h
  rcases h with (h | h) | h
  · exact Or.inl (by simp only [isLowerWord, Bool.or_eq_true, Bool.and_eq_true,
      decide_eq_true_eq]; omega)
  · exact Or.inl (by simp only [isLowerWord, Bool.or_eq_true, Bool.and_eq_true,
      decide_eq_true_eq]; omega)
  · exact Or.inr (Char.eq_of_val_eq (UInt32.ext h))

theorem lowerWord_to_word {c : Char} (h : isLowerWord c = true) : isWordChar c = true := by
  simp only [isLowerWord, Bool.or_eq_true, Bool.and_eq_true, decide_eq_true_eq] at h
  simp only [isWordChar, Bool.or_eq_true, Bool.and_eq_true, decide_eq_true_eq]
  omega

/-! Trim lemmas. -/

theorem trimLeft_isSuffix (s : Str) : trimLeft s <:+ s := by
  induction s with
  | nil => exact List.suffix_rfl
  | cons c cs ih =>
    by_cases h : isJsSpace c = true
    · rw [trimLeft, if_pos h]
      exact ih.trans (List.suffix_cons c cs)
    · rw [trimLeft, if_neg h]

theorem trimRight_isPrefix (s : Str) : trimRight s <+: s := by
  have := trimLeft_isSuffix s.reverse
  rw [trimRight]
  exact (List.reverse_suffix.mp (by simpa using this))

theorem mem_trim {c : Char} {s : Str} (h : c ∈ trim s) : c ∈ s :=
  (trimLeft_isSuffix s).mem ((trimRight_isPrefix (trimLeft s)).mem h)

theorem trimLeft_head_not_space {s : Str} {c : Char} {cs : Str}
    (h : trimLeft s = c :: cs) : isJsSpace c = false := by
  induction s with
  | nil => cases h
  | cons d ds ih =>
    by_cases hd : isJsSpace d = true
    · rw [trimLeft, if_pos hd] at h
      exact ih h
    · rw [trimLeft, if_neg hd] at h
      cases h
      simpa using hd

theorem trimLeft_eq_self_of_head {s : Str}
    (h : ∀ c cs, s = c :: cs → isJsSpace c = false) : trimLeft s = s := by
  cases s with
  | nil => rfl
  | cons c cs => rw [trimLeft, if_neg (by simp [h c cs rfl])]

theorem trimLeft_eq_self_of_all {s : Str}
    (h : ∀ c ∈ s, isJsSpace c = false) : trimLeft s = s :=
  trimLeft_eq_self_of_head (fun c cs hs => h c (hs ▸ List.mem_cons_self c cs))

theorem trim_eq_self_of_all {s : Str}
    (h : ∀ c ∈ s, isJsSpace c = false) : trim s = s := by
  rw [trim, trimLeft_eq_self_of_all h, trimRight,
    trimLeft_eq_self_of_all (fun c hc => h c (List.mem_reverse.mp hc)), List.reverse_reverse]

theorem trimLeft_idem (s : Str) : trimLeft (trimLeft s) = trimLeft s := by
  cases hs : trimLeft s with
  | nil => rfl
  | cons c cs =>
    have hc : isJsSpace c = false := trimLeft_head_not_space hs
    rw [trimLeft, if_neg (by simp [hc])]

theorem trimRight_idem (s : Str) : trimRight (trimRight s) = trimRight s := by
  simp only [trimRight, List.reverse_reverse]
  rw [trimLeft_idem]

theorem trim_trim (s : Str) : trim (trim s) = trim s := by
  simp only [trim]
  rcases h : trimRight (trimLeft s) with _ | ⟨c, cs⟩
  · rfl
  · have hpre := trimRight_isPrefix (trimLeft s)
    rw [h] at hpre
    obtain ⟨u, hu⟩ := hpre
    have hc : isJsSpace c = false :=
      trimLeft_head_not_space (show trimLeft s = c :: (cs ++ u) by rw [← hu]; rfl)
    rw [trimLeft_eq_self_of_head (fun d ds hd => by
      injection hd with h1 h2
      rw [← h1]
      exact hc)]
    rw [← h, trimRight_idem]

/-! Hyphen-collapsing and edge-hyphen lemmas. -/

theorem mem_collapseDash {c : Char} {s : Str} (h : c ∈ collapseDash s) : c ∈ s := by
  induction s using collapseDash.induct with
  | case1 => simp [collapseDash] at h
  | case2 d =>
    rw [collapseDash] at h
    exact h
  | case3 a b rest hab ih =>
    rw [collapseDash, if_pos hab] at h
    exact List.mem_cons_of_mem a (ih h)
  | case4 a b rest hab ih =>
    rw [collapseDash, if_neg hab] at h
    rcases List.mem_cons.mp h with rfl | h
    · exact List.mem_cons_self _ _
    · exact List.mem_cons_of_mem a (ih h)

theorem collapseDash_head? (s : Str) : (collapseDash s).head? = s.head? := by
  induction s using collapseDash.induct with
  | case1 => rfl
  | case2 d => rfl
  | case3 a b rest hab ih =>
    rw [collapseDash, if_pos hab, ih]
    simp only [Bool.and_eq_true, decide_eq_true_eq] at hab
    simp [hab.1, hab.2]
  | case4 a b rest hab ih =>
    rw [collapseDash, if_neg hab]
    rfl

theorem collapseDash_noDD (s : Str) : NoDD (collapseDash s) := by
  induction s using collapseDash.induct with
  | case1 => simp [collapseDash, NoDD]
  | case2 d => simp [collapseDash, NoDD]
  | case3 a b rest hab ih =>
    rw [collapseDash, if_pos hab]
    exact ih
  | case4 a b rest hab ih =>
    rw [collapseDash, if_neg hab]
    rw [NoDD, List.chain'_cons']
    refine ⟨?_, ih⟩
    intro y hy
    rw [collapseDash_head?] at hy
    simp only [List.head?_cons, Option.mem_def, Option.some.injEq] at hy
    subst hy
    intro hcon
    simp only [Bool.and_eq_true, decide_eq_true_eq] at hab
    exact hab ⟨hcon.1, hcon.2⟩

theorem collapseDash_eq_self : ∀ {s : Str}, NoDD s → collapseDash s = s := by
  intro s
  induction s using collapseDash.induct with
  | case1 => intro h; rfl
  | case2 d => intro h; rfl
  | case3 a b rest hab ih =>
    intro h
    rw [NoDD, List.chain'_cons] at h
    simp only [Bool.and_eq_true, decide_eq_true_eq] at hab
    exact absurd hab h.1
  | case4 a b rest hab ih =>
    intro h
    rw [collapseDash, if_neg hab, ih (List.chain'_cons.mp h).2]

theorem dropLeadDash_cons (c : Char) (t : Str) :
    dropLeadDash (c :: t) = if c = '-' then t else c :: t := by
  by_cases hc : c = '-'
  · subst hc
    simp [dropLeadDash]
  · simp [dropLeadDash, hc]

theorem dropLeadDash_isSuffix (s : Str) : dropLeadDash s <:+ s := by
  cases s with
  | nil => exact List.suffix_rfl
  | cons c t =>
    rw [dropLeadDash_cons]
    by_cases hc : c = '-'
    · rw [if_pos hc]
      exact List.suffix_cons c t
    · rw [if_neg hc]

theorem dropLeadDash_head : ∀ {s : Str}, NoDD s → (dropLeadDash s).head? ≠ some '-' := by
  intro s h
  cases s with
  | nil => simp [dropLeadDash]
  | cons c t =>
    rw [dropLeadDash_cons]
    by_cases hc : c = '-'
    · rw [if_pos hc]
      cases t with
      | nil => simp
      | cons b t' =>
        subst hc
        rw [NoDD, List.chain'_cons] at h
        intro hb
        simp only [List.head?_cons, Option.some.injEq] at hb
        exact h.1 ⟨rfl, hb⟩
    · rw [if_neg hc]
      intro hb
      simp only [List.head?_cons, Option.some.injEq] at hb
      exact hc hb

theorem dropLeadDash_noDD {s : Str} (h : NoDD s) : NoDD (dropLeadDash s) := by
  cases s with
  | nil => exact h
  | cons c t =>
    rw [dropLeadDash_cons]
    by_cases hc : c = '-'
    · rw [if_pos hc]
      exact h.tail
    · rw [if_neg hc]
      exact h

theorem dropLeadDash_eq_self {s : Str} (h : s.head? ≠ some '-') : dropLeadDash s = s := by
  cases s with
  | nil => rfl
  | cons c t =>
    rw [dropLeadDash_cons, if_neg (fun hc => h (by simp [hc]))]

theorem noDD_reverse (s : Str) : NoDD s.reverse ↔ NoDD s := by
  rw [NoDD, NoDD, List.chain'_reverse]
  constructor
  · exact fun h => h.imp (fun a b hab hc => hab ⟨hc.2, hc.1⟩)
  · exact fun h => h.imp (fun a b hab hc => hab ⟨hc.2, hc.1⟩)

theorem dropTrailDash_isPrefix (s : Str) : dropTrailDash s <+: s := by
  rw [dropTrailDash]
  exact List.reverse_suffix.mp (by simpa using dropLeadDash_isSuffix s.reverse)

theorem dropTrailDash_getLast {s : Str} (h : NoDD s) :
    (dropTrailDash s).getLast? ≠ some '-' := by
  rw [dropTrailDash, List.getLast?_reverse]
  exact dropLeadDash_head ((noDD_reverse s).mpr h)

theorem dropTrailDash_noDD {s : Str} (h : NoDD s) : NoDD (dropTrailDash s) := by
  rw [dropTrailDash]
  exact (noDD_reverse _).mpr (dropLeadDash_noDD ((noDD_reverse s).mpr h))

theorem dropTrailDash_eq_self {s : Str} (h : s.getLast? ≠ some '-') : dropTrailDash s = s := by
  rw [dropTrailDash, dropLeadDash_eq_self (by rwa [List.head?_reverse]), List.reverse_reverse]

theorem head?_of_isPrefix {l₁ l₂ : Str} {c : Char} (hp : l₁ <+: l₂)
    (h : l₁.head? = some c) : l₂.head? = some c := by
  obtain ⟨t, rfl⟩ := hp
  cases l₁ with
  | nil => cases h
  | cons a l => simpa using h

theorem mem_dropEdgeDash {c : Char} {s : Str} (h : c ∈ dropEdgeDash s) : c ∈ s :=
  (dropLeadDash_isSuffix s).mem ((dropTrailDash_isPrefix (dropLeadDash s)).mem h)

theorem dropEdgeDash_head {s : Str} (h : NoDD s) : (dropEdgeDash s).head? ≠ some '-' := by
  rw [dropEdgeDash]
  intro hy
  exact dropLeadDash_head h (head?_of_isPrefix (dropTrailDash_isPrefix _) hy)

theorem dropEdgeDash_getLast {s : Str} (h : NoDD s) :
    (dropEdgeDash s).getLast? ≠ some '-' :=
  dropTrailDash_getLast (dropLeadDash_noDD h)

theorem dropEdgeDash_noDD {s : Str} (h : NoDD s) : NoDD (dropEdgeDash s) :=
  dropTrailDash_noDD (dropLeadDash_noDD h)

theorem dropEdgeDash_eq_self {s : Str} (h1 : s.head? ≠ some '-')
    (h2 : s.getLast? ≠ some '-') : dropEdgeDash s = s := by
  rw [dropEdgeDash, dropLeadDash_eq_self h1, dropTrailDash_eq_self h2]

/-! Whitespace-run lemmas. -/

theorem mem_spaceRunsToDash : ∀ {c : Char} {t : Str}, c ∈ spaceRunsToDash t →
    c = '-' ∨ (c ∈ t ∧ isJsSpace c = false) := by
  intro c t
  induction t using spaceRunsToDash.induct with
  | case1 => intro h; simp [spaceRunsToDash] at h
  | case2 d hd =>
    intro h
    rw [spaceRunsToDash, if_pos hd] at h
    exact Or.inl (by simpa using h)
  | case3 d hd =>
    intro h
    rw [spaceRunsToDash, if_neg hd] at h
    exact Or.inr ⟨by simpa using h, by simp only [List.mem_singleton] at h; rw [h]; simpa using hd⟩
  | case4 a b rest ha hb ih =>
    intro h
    rw [spaceRunsToDash, if_pos ha, if_pos hb] at h
    rcases ih h with h | ⟨h1, h2⟩
    · exact Or.inl h
    · exact Or.inr ⟨List.mem_cons_of_mem a h1, h2⟩
  | case5 a b rest ha hb ih =>
    intro h
    rw [spaceRunsToDash, if_pos ha, if_neg hb] at h
    rcases List.mem_cons.mp h with rfl | h
    · exact Or.inl rfl
    · rcases ih h with h | ⟨h1, h2⟩
      · exact Or.inl h
      · exact Or.inr ⟨List.mem_cons_of_mem a h1, h2⟩
  | case6 a b rest ha ih =>
    intro h
    rw [spaceRunsToDash, if_neg ha] at h
    rcases List.mem_cons.mp h with rfl | h
    · exact Or.inr ⟨List.mem_cons_self _ _, by simpa using ha⟩
    · rcases ih h with h | ⟨h1, h2⟩
      · exact Or.inl h
      · exact Or.inr ⟨List.mem_cons_of_mem a h1, h2⟩

theorem spaceRunsToDash_eq_self : ∀ {t : Str}, (∀ c ∈ t, isJsSpace c = false) →
    spaceRunsToDash t = t := by
  intro t
  induction t using spaceRunsToDash.induct with
  | case1 => intro h; rfl
  | case2 d hd =>
    intro h
    exact absurd (h d (List.mem_singleton_self d)) (by simp [hd])
  | case3 d hd =>
    intro h
    rw [spaceRunsToDash, if_neg hd]
  | case4 a b rest ha hb ih =>
    intro h
    exact absurd (h a (List.mem_cons_self _ _)) (by simp [ha])
  | case5 a b rest ha hb ih =>
    intro h
    exact absurd (h a (List.mem_cons_self _ _)) (by simp [ha])
  | case6 a b rest ha ih =>
    intro h
    rw [spaceRunsToDash, if_neg ha, ih (fun c hc => h c (List.mem_cons_of_mem a hc))]

/-! sanitizeId output-shape and idempotence lemmas. -/

theorem sanitizeId_chars (low : Char → Char) (s : Str) :
    ∀ c ∈ sanitizeId low s, isSlugChar c = true := by
  intro c hc
  rw [sanitizeId] at hc
  have h1 := mem_collapseDash (mem_dropEdgeDash hc)
  rw [List.mem_map] at h1
  obtain ⟨d, -, hd⟩ := h1
  by_cases hslug : isSlugChar d = true
  · rw [if_pos hslug] at hd
    rw [← hd]
    exact hslug
  · rw [if_neg hslug] at hd
    rw [← hd]
    rfl

theorem sanitizeId_head (low : Char → Char) (s : Str) :
    (sanitizeId low s).head? ≠ some '-' :=
  dropEdgeDash_head (collapseDash_noDD _)

theorem sanitizeId_getLast (low : Char → Char) (s : Str) :
    (sanitizeId low s).getLast? ≠ some '-' :=
  dropEdgeDash_getLast (collapseDash_noDD _)

theorem sanitizeId_noDD (low : Char → Char) (s : Str) : NoDD (sanitizeId low s) :=
  dropEdgeDash_noDD (collapseDash_noDD _)

theorem sanitizeId_idem (low : Char → Char)
    (hfix : ∀ c, isSlugChar c = true → low c = c) (s : Str) :
    sanitizeId low (sanitizeId low s) = sanitizeId low s := by
  have hchars := sanitizeId_chars low s
  conv_lhs => rw [sanitizeId]
  rw [trim_eq_self_of_all (fun c hc => slug_not_space (hchars c hc))]
  rw [show (sanitizeId low s).map low = sanitizeId low s from by
    rw [show (sanitizeId low s).map low = (sanitizeId low s).map id from
      List.map_congr_left (fun a ha => hfix a (hchars a ha)), List.map_id]]
  rw [show (sanitizeId low s).map (fun c => if isSlugChar c then c else '-') =
      (sanitizeId low s).map id from
    List.map_congr_left (fun a ha => by simp [hchars a ha])]
  rw [List.map_id]
  rw [collapseDash_eq_self (sanitizeId_noDD low s)]
  exact dropEdgeDash_eq_self (sanitizeId_head low s) (sanitizeId_getLast low s)

/-! slugify lemmas. -/

theorem mem_slugify {nfkd : Str → Str} {low : Char → Char} {c : Char} {x : Str}
    (h : c ∈ slugify nfkd low x) :
    c = '-' ∨ (isJsSpace c = false ∧
      ∃ d, (isWordChar d || isJsSpace d || d = '-') = true ∧ low d = c) := by
  rw [slugify] at h
  have h1 := mem_collapseDash h
  rcases mem_spaceRunsToDash h1 with h2 | ⟨h2, h3⟩
  · exact Or.inl h2
  · refine Or.inr ⟨h3, ?_⟩
    rw [List.mem_map] at h2
    obtain ⟨d, hd, hld⟩ := h2
    have hdf := mem_trim hd
    rw [List.mem_filter] at hdf
    exact ⟨d, hdf.2, hld⟩

theorem slugify_chars {nfkd : Str → Str} {low : Char → Char}
    (hword : ∀ c, isWordChar c = true → isLowerWord (low c) = true)
    (hfix : ∀ c, isLowerWord c = true ∨ c = '-' → low c = c)
    (hspace : ∀ c, isJsSpace c = true → low c = c)
    (x : Str) : ∀ c ∈ slugify nfkd low x, isLowerWord c = true ∨ c = '-' := by
  intro c hc
  rcases mem_slugify hc with rfl | ⟨hns, d, hd, rfl⟩
  · exact Or.inr rfl
  · simp only [Bool.or_eq_true, decide_eq_true_eq] at hd
    rcases hd with (hd | hd) | hd
    · exact Or.inl (hword d hd)
    · rw [hspace d hd] at hns
      rw [hd] at hns
      cases hns
    · subst hd
      exact Or.inr (hfix '-' (Or.inr rfl))

theorem slugify_noDD (nfkd : Str → Str) (low : Char → Char) (x : Str) :
    NoDD (slugify nfkd low x) :=
  collapseDash_noDD _

/-- C7: the identity-slug normalization is idempotent: re-applying `slugify`
(and likewise `sanitizeId`) to its own output changes nothing.  The
hypotheses are the properties of the runtime's `toLowerCase` (`low`) and
`normalize("NFKD")` (`nfkd`) the proof uses: `toLowerCase` sends word
characters to lower-case word characters and fixes lower-case word
characters, hyphens and whitespace, and NFKD normalization fixes strings
made of lower-case word characters and hyphens (all are ASCII-fixed
functions). -/
theorem slug_normalization_idempotent (nfkd : Str → Str) (low : Char → Char)
    (hword : ∀ c, isWordChar c = true → isLowerWord (low c) = true)
    (hfix : ∀ c, isLowerWord c = true ∨ c = '-' → low c = c)
    (hspace : ∀ c, isJsSpace c = true → low c = c)
    (hnfkd : ∀ t : Str, (∀ c ∈ t, isLowerWord c = true ∨ c = '-') → nfkd t = t)
    (x : Str) :
    slugify nfkd low (slugify nfkd low x) = slugify nfkd low x ∧
    sanitizeId low (sanitizeId low x) = sanitizeId low x := by
  refine ⟨?_, sanitizeId_idem low (fun c hc => hfix c (slug_to_lowerWord_or_dash hc)) x⟩
  have hy := @slugify_chars nfkd low hword hfix hspace x
  have hns : ∀ c ∈ slugify nfkd low x, isJsSpace c = false := fun c hc =>
    (hy c hc).elim lowerWord_not_space (fun h => by rw [h]; rfl)
  conv_lhs => rw [slugify]
  rw [hnfkd _ hy]
  rw [List.filter_eq_self.mpr (fun a ha => by
    rcases hy a ha with h | h
    · simp [lowerWord_to_word h]
    · simp [h])]
  rw [trim_eq_self_of_all hns]
  rw [show (slugify nfkd low x).map low = slugify nfkd low x from by
    rw [show (slugify nfkd low x).map low = (slugify nfkd low x).map id from
      List.map_congr_left (fun a ha => hfix a (hy a ha)), List.map_id]]
  rw [spaceRunsToDash_eq_self hns]
  exact collapseDash_eq_self (slugify_noDD nfkd low x)

/-- Witness for C7 at a concrete lower-casing function, NFKD function and
input string. -/
theorem slug_normalization_idempotent_witness :
    slugify (fun t => t) lowerModel
        (slugify (fun t => t) lowerModel ("Harry Kane".toList)) =
      slugify (fun t => t) lowerModel ("Harry Kane".toList) ∧
    sanitizeId lowerModel (sanitizeId lowerModel ("Harry Kane".toList)) =
      sanitizeId lowerModel ("Harry Kane".toList) := by
  refine slug_normalization_idempotent (fun t => t) lowerModel ?_ ?_ ?_
    (fun t _ => rfl) ("Harry Kane".toList)
  · intro c h
    rw [lowerModel]
    by_cases hl : isLowerWord c = true
    · rw [if_neg (by simp [hl])]
      exact hl
    · have hl' : isLowerWord c = false := by
        revert hl
        cases isLowerWord c <;> simp
      rw [if_pos (by simp [h, hl'])]
      decide
  · intro c h
    rcases h with h | h
    · rw [lowerModel, if_neg (by simp [h])]
    · subst h
      rw [lowerModel, if_neg (by decide)]
  · intro c h
    rw [lowerModel, if_neg (by simp [space_not_word h])]

/-- C6 counterexample: merge.mjs's `slugify` does not satisfy the claimed
output shape.  On the string of one underscore it returns it unchanged
(underscores are word characters, which the deletion step keeps), although
an underscore is outside `[a-z0-9-]`; on the string hyphen-a it keeps the
leading hyphen (`slugify` has no edge-hyphen trim).  The concrete `nfkd`
and `low` used here are the identity, which agrees with the runtime's
`normalize("NFKD")` and `toLowerCase` on these all-ASCII inputs. -/
theorem slugify_violates_slug_shape :
    slugify (fun t => t) (fun c => c) ['_'] = ['_'] ∧
    isSlugChar '_' = false ∧
    slugify (fun t => t) (fun c => c) ['-', 'a'] = ['-', 'a'] ∧
    (slugify (fun t => t) (fun c => c) ['-', 'a']).head? = some '-' := by
  decide

/-- C6 amended: the claimed output shape holds for `sanitizeId`, the
identity-slug function the data pipeline uses (it replaces characters
outside `[a-z0-9-]` with hyphens rather than removing them, then collapses
hyphen runs and trims edge hyphens): every output character is in
`[a-z0-9-]` and the output has no leading, trailing or repeated hyphen.
Of `slugify`, only the no-repeated-hyphen part survives. -/
theorem sanitizeId_output_shape (nfkd : Str → Str) (low : Char → Char) (s : Str) :
    (∀ c ∈ sanitizeId low s, isSlugChar c = true) ∧
    (sanitizeId low s).head? ≠ some '-' ∧
    (sanitizeId low s).getLast? ≠ some '-' ∧
    NoDD (sanitizeId low s) ∧
    NoDD (slugify nfkd low s) :=
  ⟨sanitizeId_chars low s, sanitizeId_head low s, sanitizeId_getLast low s,
    sanitizeId_noDD low s, slugify_noDD nfkd low s⟩

/-! Fold bounds for minima, maxima and form averages. -/

theorem foldl_min_le_self (a : ℚ) (l : List ℚ) : l.foldl min a ≤ a := by
  induction l generalizing a with
  | nil => exact le_refl a
  | cons b l ih => exact le_trans (ih (min a b)) (min_le_left a b)

theorem foldl_min_le_mem {x : ℚ} {l : List ℚ} (a : ℚ) (h : x ∈ l) : l.foldl min a ≤ x := by
  induction l generalizing a with
  | nil => cases h
  | cons b l ih =>
    rcases List.mem_cons.mp h with rfl | h
    · exact le_trans (foldl_min_le_self (min a x) l) (min_le_right a x)
    · exact ih (min a b) h

theorem le_foldl_max_self (a : ℚ) (l : List ℚ) : a ≤ l.foldl max a := by
  induction l generalizing a with
  | nil => exact le_refl a
  | cons b l ih => exact le_trans (le_max_left a b) (ih (max a b))

theorem mem_le_foldl_max {x : ℚ} {l : List ℚ} (a : ℚ) (h : x ∈ l) : x ≤ l.foldl max a := by
  induction l generalizing a with
  | nil => cases h
  | cons b l ih =>
    rcases List.mem_cons.mp h with rfl | h
    · exact le_trans (le_max_right a x) (le_foldl_max_self (max a x) l)
    · exact ih (max a b) h

theorem foldl_max_eq_self {a : ℚ} {l : List ℚ} (h : ∀ x ∈ l, x ≤ a) : l.foldl max a = a := by
  induction l with
  | nil => rfl
  | cons b l ih =>
    rw [List.foldl_cons, max_eq_left (h b (List.mem_cons_self b l))]
    exact ih (fun x hx => h x (List.mem_cons_of_mem b hx))

theorem alookup_mem_values {m : List (Str × ℚ)} {k : Str} {v : ℚ}
    (h : alookup m k = some v) : v ∈ m.map (fun e => e.2) := by
  rw [alookup, Option.map_eq_some'] at h
  obtain ⟨e, he, rfl⟩ := h
  exact List.mem_map_of_mem _ (List.mem_of_find?_eq_some he)

theorem alookup_between {m : List (Str × ℚ)} {k : Str} {v : ℚ}
    (h : alookup m k = some v) :
    difficultyMinOf m ≤ v ∧ v ≤ difficultyMaxOf m := by
  have hv := alookup_mem_values h
  rw [difficultyMinOf, difficultyMaxOf]
  rcases hm : m.map (fun e => e.2) with _ | ⟨v0, vs⟩
  · rw [hm] at hv
    cases hv
  · rw [hm] at hv
    rw [hm]
    rcases List.mem_cons.mp hv with rfl | hv
    · exact ⟨foldl_min_le_self v vs, le_foldl_max_self v vs⟩
    · exact ⟨foldl_min_le_mem v0 hv, mem_le_foldl_max v0 hv⟩

theorem formFold_bound (parts : List Str) (a : ℚ) :
    a ≤ parts.foldl
        (fun acc part =>
          if part = ['W'] then acc + 1
          else if part = ['D'] then acc + 1 / 2
          else acc) a ∧
    parts.foldl
        (fun acc part =>
          if part = ['W'] then acc + 1
          else if part = ['D'] then acc + 1 / 2
          else acc) a ≤ a + parts.length := by
  induction parts generalizing a with
  | nil => simp
  | cons p parts ih =>
    rw [List.foldl_cons, List.length_cons]
    have step1 : a ≤ (if p = ['W'] then a + 1 else if p = ['D'] then a + 1 / 2 else a) := by
      split
      · linarith
      · split
        · linarith
        · exact le_refl a
    have step2 : (if p = ['W'] then a + 1 else if p = ['D'] then a + 1 / 2 else a) ≤ a + 1 := by
      split
      · linarith
      · split
        · linarith
        · linarith
    refine ⟨le_trans step1 (ih _).1, le_trans (ih _).2 ?_⟩
    push_cast
    linarith

theorem parseForm_range {o : Option Str} {q : ℚ} (h : parseForm o = some q) :
    0 ≤ q ∧ q ≤ 1 := by
  rcases o with _ | s
  · cases h
  · rw [parseForm] at h
    by_cases hs : s = []
    · rw [if_pos hs] at h
      cases h
    · rw [if_neg hs] at h
      set parts0 := ((s.splitOn ',').map trim).filter (fun p => p ≠ []) with hp0
      set parts := parts0.drop (parts0.length - 5) with hp
      by_cases hparts : parts = []
      · rw [if_pos hparts] at h
        cases h
      · rw [if_neg hparts] at h
        injection h with h
        have hlen : 0 < (parts.length : ℚ) := by
          have := List.length_pos.mpr hparts
          exact_mod_cast this
        have hb := formFold_bound parts 0
        constructor
        · rw [← h]
          exact div_nonneg hb.1 (le_of_lt hlen)
        · rw [← h]
          rw [div_le_one hlen]
          have := hb.2
          linarith

theorem mem_aset {m : List (Str × ℚ)} {k : Str} {v : ℚ} {kv : Str × ℚ}
    (h : kv ∈ aset m k v) : kv ∈ m ∨ kv = (k, v) := by
  rw [aset] at h
  split at h
  · rw [List.mem_map] at h
    obtain ⟨e, he, hef⟩ := h
    by_cases hk : e.1 = k
    · rw [if_pos hk] at hef
      exact Or.inr hef.symm
    · rw [if_neg hk] at hef
      exact Or.inl (hef ▸ he)
  · rcases List.mem_append.mp h with h | h
    · exact Or.inl h
    · exact Or.inr (List.mem_singleton.mp h)

theorem tfFold_bound (low : Char → Char) (rows : List TableRow) :
    ∀ tf0 : List (Str × ℚ), (∀ kv ∈ tf0, 0 ≤ kv.2 ∧ kv.2 ≤ 1) →
      ∀ kv ∈ rows.foldl (tfStep low) tf0, 0 ≤ kv.2 ∧ kv.2 ≤ 1 := by
  induction rows with
  | nil => exact fun tf0 h0 => h0
  | cons row rows ih =>
    intro tf0 h0
    rw [List.foldl_cons]
    refine ih _ ?_
    intro kv hkv
    simp only [tfStep] at hkv
    rcases hf : parseForm row.form with _ | f <;> rw [hf] at hkv
    · exact h0 kv hkv
    · have hkv' : kv ∈ (if sanitizeId low (row.teamName.getD []) = [] then tf0
          else aset tf0 (sanitizeId low (row.teamName.getD [])) f) := hkv
      by_cases hk : sanitizeId low (row.teamName.getD []) = []
      · rw [if_pos hk] at hkv'
        exact h0 kv hkv'
      · rw [if_neg hk] at hkv'
        rcases mem_aset hkv' with hm | rfl
        · exact h0 kv hm
        · exact parseForm_range hf

theorem teamForm_values_bound (low : Char → Char) (entries : List StandingsEntry) :
    ∀ kv ∈ (buildStandingsSignals low entries).2, 0 ≤ kv.2 ∧ kv.2 ≤ 1 := by
  rw [buildStandingsSignals]
  have gen : ∀ (maps : List (Str × ℚ) × List (Str × ℚ)),
      (∀ kv ∈ maps.2, 0 ≤ kv.2 ∧ kv.2 ≤ 1) →
      ∀ kv ∈ (entries.foldl (signalsStep low) maps).2, 0 ≤ kv.2 ∧ kv.2 ≤ 1 := by
    induction entries with
    | nil => exact fun maps h0 => h0
    | cons entry entries ih =>
      intro maps h0
      rw [List.foldl_cons]
      exact ih _ (tfFold_bound low _ _ h0)
  exact gen ([], []) (by simp)

/-- C4: for every player row and every standings snapshot, the league
difficulty normalizer and the team form normalizer both lie in
`[0.85, 1.15]`; a missing league signal gives a difficulty normalizer of
exactly 1, and missing team-form data defaults the raw form average to 0.5,
a neutral boost of 1. -/
theorem standings_norms_bounded (low : Char → Char) (entries : List StandingsEntry)
    (p : FantasyRow) :
    (85 / 100 ≤ (mainScore low entries p).difficultyNorm ∧
      (mainScore low entries p).difficultyNorm ≤ 115 / 100) ∧
    (85 / 100 ≤ (mainScore low entries p).formBoost ∧
      (mainScore low entries p).formBoost ≤ 115 / 100) ∧
    (alookup (buildStandingsSignals low entries).1
        (sanitizeId low (p.competitionName.getD [])) = none →
      (mainScore low entries p).difficultyNorm = 1) ∧
    (alookup (buildStandingsSignals low entries).2 (sanitizeId low (p.team.getD [])) = none →
      (mainScore low entries p).formScoreRaw = 1 / 2 ∧
      (mainScore low entries p).formBoost = 1) := by
  simp only [mainScore, scoreRow]
  refine ⟨?_, ?_, ?_, ?_⟩
  · rcases hlook : alookup (buildStandingsSignals low entries).1
        (sanitizeId low (p.competitionName.getD [])) with _ | raw
    · constructor
      · show (85 : ℚ) / 100 ≤ 1
        norm_num
      · show (1 : ℚ) ≤ 115 / 100
        norm_num
    · by_cases heq : difficultyMaxOf (buildStandingsSignals low entries).1 =
          difficultyMinOf (buildStandingsSignals low entries).1
      · constructor
        · show (85 : ℚ) / 100 ≤ if difficultyMaxOf _ = difficultyMinOf _ then _ else _
          rw [if_pos heq]
          norm_num
        · show (if difficultyMaxOf _ = difficultyMinOf _ then _ else _ : ℚ) ≤ 115 / 100
          rw [if_pos heq]
          norm_num
      · have hbet := alookup_between hlook
        have hle := le_trans hbet.1 hbet.2
        have hlt := lt_of_le_of_ne hle (Ne.symm heq)
        have hD : (0 : ℚ) < difficultyMaxOf (buildStandingsSignals low entries).1 -
            difficultyMinOf (buildStandingsSignals low entries).1 := by linarith
        have h0 : 0 ≤ (raw - difficultyMinOf (buildStandingsSignals low entries).1) /
            (difficultyMaxOf (buildStandingsSignals low entries).1 -
              difficultyMinOf (buildStandingsSignals low entries).1) :=
          div_nonneg (by linarith [hbet.1]) (le_of_lt hD)
        have h1 : (raw - difficultyMinOf (buildStandingsSignals low entries).1) /
            (difficultyMaxOf (buildStandingsSignals low entries).1 -
              difficultyMinOf (buildStandingsSignals low entries).1) ≤ 1 := by
          rw [div_le_one hD]
          linarith [hbet.2]
        constructor
        · show (85 : ℚ) / 100 ≤ if difficultyMaxOf _ = difficultyMinOf _ then _ else _
          rw [if_neg heq]
          linarith
        · show (if difficultyMaxOf _ = difficultyMinOf _ then _ else _ : ℚ) ≤ 115 / 100
          rw [if_neg heq]
          linarith
  · rcases hlook : alookup (buildStandingsSignals low entries).2
        (sanitizeId low (p.team.getD [])) with _ | v
    · constructor
      · show (85 : ℚ) / 100 ≤ 85 / 100 + 1 / 2 * (3 / 10)
        norm_num
      · show (85 : ℚ) / 100 + 1 / 2 * (3 / 10) ≤ 115 / 100
        norm_num
    · have hv02 : 0 ≤ v ∧ v ≤ 1 := by
        have hv := alookup_mem_values hlook
        rw [List.mem_map] at hv
        obtain ⟨kv, hkv, hkv2⟩ := hv
        have := teamForm_values_bound low entries kv hkv
        rw [hkv2] at this
        exact this
      have hmul0 : 0 ≤ v * (3 / 10) := mul_nonneg hv02.1 (by norm_num)
      have hmul1 : v * (3 / 10) ≤ 3 / 10 := by
        have := mul_le_mul_of_nonneg_right hv02.2 (show (0 : ℚ) ≤ 3 / 10 by norm_num)
        linarith
      constructor
      · show (85 : ℚ) / 100 ≤ 85 / 100 + v * (3 / 10)
        linarith
      · show (85 : ℚ) / 100 + v * (3 / 10) ≤ 115 / 100
        linarith
  · intro h
    rw [h]
  · intro h
    rw [h]
    constructor
    · rfl
    · show (85 : ℚ) / 100 + 1 / 2 * (3 / 10) = 1
      norm_num

/-- Witness for C4: with no standings snapshot, both signals are missing and
both normalizers are neutral. -/
theorem standings_norms_bounded_witness :
    (mainScore (fun c => c) [] {}).difficultyNorm = 1 ∧
    (mainScore (fun c => c) [] {}).formScoreRaw = 1 / 2 ∧
    (mainScore (fun c => c) [] {}).formBoost = 1 :=
  ⟨(standings_norms_bounded (fun c => c) [] {}).2.2.1 rfl,
    ((standings_norms_bounded (fun c => c) [] {}).2.2.2 rfl).1,
    ((standings_norms_bounded (fun c => c) [] {}).2.2.2 rfl).2⟩

/-- C5: for every count and minutes, `per90` returns `count / (minutes / 90)`
when `minutes > 0` and `0` when `minutes ≤ 0` (including negatives), and in
particular `per90 5 0 = 0`, `per90 0 90 = 0`, `per90 9 90 = 9`. -/
theorem per90_spec :
    (∀ c m : ℚ, 0 < m → per90 c m = c / (m / 90)) ∧
    (∀ c m : ℚ, m ≤ 0 → per90 c m = 0) ∧
    per90 5 0 = 0 ∧ per90 0 90 = 0 ∧ per90 9 90 = 9 := by
  refine ⟨?_, ?_, by norm_num [per90], by norm_num [per90], by norm_num [per90]⟩
  · intro c m h
    simp [per90, h]
  · intro c m h
    simp [per90, not_lt.mpr h]

/-- Witness for C5 at concrete inputs. -/
theorem per90_spec_witness :
    per90 5 900 = 5 / (900 / 90) ∧ per90 5 (-3) = 0 :=
  ⟨per90_spec.1 5 900 (by norm_num), per90_spec.2.1 5 (-3) (by norm_num)⟩

/-- C3: for every player row, the scorer returns
`formScore = (goals90 * 4 + assists90 * 3 + shots90 * 0.5) * leagueDifficultyNorm
* teamFormNorm` (here `difficultyNorm` and `formBoost`) and
`valueScore = (goals90 + assists90) * 90 * leagueDifficultyNorm`, where the
per-90 figures are the `per90` rates of the row's goals, assists and shots
over its minutes. -/
theorem scoreRow_formulas (low : Char → Char) (ld tf : List (Str × ℚ))
    (dMin dMax : ℚ) (p : FantasyRow) :
    (scoreRow low ld tf dMin dMax p).g90 =
      per90 (numOf p.goals) (numOf (coalesce p.minutes p.minutesEstimate)) ∧
    (scoreRow low ld tf dMin dMax p).a90 =
      per90 (numOf p.assists) (numOf (coalesce p.minutes p.minutesEstimate)) ∧
    (scoreRow low ld tf dMin dMax p).s90 =
      per90 (numOf p.shots) (numOf (coalesce p.minutes p.minutesEstimate)) ∧
    (scoreRow low ld tf dMin dMax p).formScore =
      ((scoreRow low ld tf dMin dMax p).g90 * 4 +
        (scoreRow low ld tf dMin dMax p).a90 * 3 +
        (scoreRow low ld tf dMin dMax p).s90 * (1 / 2)) *
      (scoreRow low ld tf dMin dMax p).difficultyNorm *
      (scoreRow low ld tf dMin dMax p).formBoost ∧
    (scoreRow low ld tf dMin dMax p).valueScore =
      ((scoreRow low ld tf dMin dMax p).g90 + (scoreRow low ld tf dMin dMax p).a90) * 90 *
      (scoreRow low ld tf dMin dMax p).difficultyNorm :=
  ⟨rfl, rfl, rfl, rfl, rfl⟩

/-- C8: when the incoming fantasy batch is empty (fantasy.json missing,
malformed, or holding an empty players array), the sync step returns before
merging and players.json is not overwritten. -/
theorem syncMain_empty_incoming (low : Char → Char) (le : Str → Str → Bool)
    (playersArr : Option (List RawPlayer)) (now : Str) :
    syncMain low le playersArr none now = none ∧
    syncMain low le playersArr (some []) now = none :=
  ⟨rfl, rfl⟩

/-- C9: every record `cleanPlayers` keeps has a non-empty id and name, and a
raw row normalizing to an empty name and an empty id contributes no record
(it is dropped by the filter, with no exception). -/
theorem cleanPlayers_invariant (low : Char → Char) :
    (∀ (rows : List SourceRecord) (p : PlayerRecord),
        p ∈ cleanPlayers low rows → p.id ≠ [] ∧ p.name ≠ []) ∧
    (∀ rec : SourceRecord,
        (normalizeRecord low rec).name = [] ∧ (normalizeRecord low rec).id = [] →
        cleanPlayers low [rec] = []) := by
  constructor
  · intro rows p hp
    simp only [cleanPlayers, List.mem_map, List.mem_filter] at hp
    obtain ⟨q, ⟨-, hq⟩, rfl⟩ := hp
    simpa using of_decide_eq_true hq
  · intro rec h
    simp [cleanPlayers, h.1]

/-- Witness for C9: the all-empty raw row yields no record. -/
theorem cleanPlayers_invariant_witness :
    cleanPlayers (fun c => c) [{}] = [] :=
  (cleanPlayers_invariant (fun c => c)).2 {} ⟨rfl, rfl⟩

/-! The fetch loop appends one fixtures slice and one standings slice per
competition with a truthy id, each a function of that competition's own
fetch results only. -/

theorem fetchFold_append {Season M S : Type} (low : Char → Char) (limit : Option ℤ)
    (fetchM : ℤ → Except Str (Option (List M)))
    (fetchS : ℤ → Except Str (Option Season × Option (List S)))
    (fetchSc : ℤ → Except Str (Option (List ScorerRaw))) :
    ∀ (comps : List (Competition Season))
      (init : List (FixSlice Season M) × List (StandSlice Season S) × List FPlayer),
      comps.foldl (fetchStep low limit fetchM fetchS fetchSc) init =
        (init.1 ++ (comps.filter compHasId).map
            (fun c => (fetchCompetition low limit fetchM fetchS fetchSc c (c.id.getD 0)).1),
         init.2.1 ++ (comps.filter compHasId).map
            (fun c => (fetchCompetition low limit fetchM fetchS fetchSc c (c.id.getD 0)).2.1),
         init.2.2 ++ ((comps.filter compHasId).map
            (fun c => (fetchCompetition low limit fetchM fetchS fetchSc c (c.id.getD 0)).2.2)).flatten) := by
  intro comps
  induction comps with
  | nil => intro init; simp
  | cons c comps ih =>
    intro init
    rw [List.foldl_cons]
    rcases hid : c.id with _ | cid
    · have hstep : fetchStep low limit fetchM fetchS fetchSc init c = init := by
        rw [fetchStep, hid]
      have hfil : compHasId c = false := by
        rw [compHasId, hid]
      rw [hstep, ih init, List.filter_cons_of_neg (by simp [hfil])]
    · by_cases hz : cid = 0
      · have hstep : fetchStep low limit fetchM fetchS fetchSc init c = init := by
          rw [fetchStep, hid]
          exact if_pos hz
        have hfil : compHasId c = false := by
          rw [compHasId, hid]
          simp [hz]
        rw [hstep, ih init, List.filter_cons_of_neg (by simp [hfil])]
      · have hfil : compHasId c = true := by
          rw [compHasId, hid]
          simp [hz]
        have hstep : fetchStep low limit fetchM fetchS fetchSc init c =
            (init.1 ++ [(fetchCompetition low limit fetchM fetchS fetchSc c cid).1],
             init.2.1 ++ [(fetchCompetition low limit fetchM fetchS fetchSc c cid).2.1],
             init.2.2 ++ (fetchCompetition low limit fetchM fetchS fetchSc c cid).2.2) := by
          rw [fetchStep, hid]
          exact if_neg hz
        rw [hstep, ih, List.filter_cons_of_pos (by simp [hfil])]
        simp only [List.map_cons, List.flatten_cons, hid, Option.getD_some]
        refine Prod.ext ?_ (Prod.ext ?_ ?_) <;> simp [List.append_assoc]

/-- C10: for every configured competition list and any outcome of the
per-competition fixture and standings fetches, the loop emits exactly one
fixtures slice and one standings slice per competition with a truthy id, in
order, each slice depending only on that competition's own fetch result —
so one competition's failure never aborts the run or disturbs another's
slice — and a failed (caught) fetch yields the error-flagged empty slice
with the error text recorded in its `error` field. -/
theorem fetch_failure_is_isolated {Season M S : Type} (low : Char → Char) (limit : Option ℤ)
    (fetchM : ℤ → Except Str (Option (List M)))
    (fetchS : ℤ → Except Str (Option Season × Option (List S)))
    (fetchSc : ℤ → Except Str (Option (List ScorerRaw)))
    (comps : List (Competition Season)) :
    (fetchLoop low limit fetchM fetchS fetchSc comps).1 =
      (comps.filter compHasId).map
        (fun c => fixturesFor c (sanitizeId low (competitionLabel c (c.id.getD 0))) limit
          (fetchM (c.id.getD 0))) ∧
    (fetchLoop low limit fetchM fetchS fetchSc comps).2.1 =
      (comps.filter compHasId).map
        (fun c => standingsFor c (sanitizeId low (competitionLabel c (c.id.getD 0)))
          (fetchS (c.id.getD 0))) ∧
    (∀ (c : Competition Season) (slug e : Str),
      fixturesFor (M := M) c slug limit (Except.error e) =
        { competition := c, slug := slug, matchCount := 0, matchList := [],
          error := some e }) ∧
    (∀ (c : Competition Season) (slug e : Str),
      standingsFor (S := S) c slug (Except.error e) =
        { competition := c, slug := slug, season := c.currentSeason, standings := [],
          error := some e }) := by
  refine ⟨?_, ?_, fun c slug e => rfl, fun c slug e => rfl⟩
  · rw [fetchLoop, fetchFold_append]
    simp [fetchCompetition]
  · rw [fetchLoop, fetchFold_append]
    simp [fetchCompetition]

/-! Map lemmas: get/set/keys behaviour of the insertion-ordered `byId` map. -/

theorem any_key_iff (m : PMap) (k : Str) :
    m.any (fun e => e.1 = k) = true ↔ k ∈ keysOf m := by
  rw [List.any_eq_true, keysOf, List.mem_map]
  constructor
  · rintro ⟨e, he, hk⟩
    exact ⟨e, he, of_decide_eq_true hk⟩
  · rintro ⟨e, he, hk⟩
    exact ⟨e, he, decide_eq_true hk⟩

theorem mget_eq_none_iff (m : PMap) (k : Str) : mget m k = none ↔ k ∉ keysOf m := by
  rw [mget, Option.map_eq_none', List.find?_eq_none, keysOf, List.mem_map]
  constructor
  · rintro h ⟨e, he, hk⟩
    exact h e he (decide_eq_true hk)
  · rintro h e he hk
    exact h ⟨e, he, of_decide_eq_true hk⟩

theorem mget_mem {m : PMap} {k : Str} {v : PlayerRecord} (h : mget m k = some v) :
    (k, v) ∈ m := by
  rw [mget, Option.map_eq_some'] at h
  obtain ⟨e, he, hv⟩ := h
  have hk := of_decide_eq_true
    (List.find?_some (p := fun (e : Str × PlayerRecord) => decide (e.1 = k)) he)
  have hm := List.mem_of_find?_eq_some
    (p := fun (e : Str × PlayerRecord) => decide (e.1 = k)) he
  have hekv : e = (k, v) := by
    rw [Prod.ext_iff]
    exact ⟨hk, hv⟩
  rwa [hekv] at hm

theorem mget_map_set_self {k : Str} {v : PlayerRecord} :
    ∀ {m : PMap}, m.any (fun e => e.1 = k) = true →
      mget (m.map (fun e => if e.1 = k then (k, v) else e)) k = some v := by
  intro m
  induction m with
  | nil => intro h; cases h
  | cons e m ih =>
    intro h
    rw [List.map_cons]
    by_cases he : e.1 = k
    · rw [if_pos he, mget, List.find?_cons_of_pos _ (by simp)]
      rfl
    · rw [if_neg he, mget, List.find?_cons_of_neg _ (by simp [he])]
      refine ih ?_
      rw [List.any_cons] at h
      rw [show (decide (e.1 = k)) = false from decide_eq_false he, Bool.false_or] at h
      exact h

theorem mget_mset_self (m : PMap) (k : Str) (v : PlayerRecord) :
    mget (mset m k v) k = some v := by
  rw [mset]
  split
  · exact mget_map_set_self ‹_›
  · rename_i hany
    have hfalse : m.any (fun e => e.1 = k) = false := by
      revert hany
      cases m.any (fun e => e.1 = k) <;> simp
    rw [mget, List.find?_append,
      List.find?_eq_none.mpr (List.any_eq_false.mp hfalse),
      Option.none_or, List.find?_cons_of_pos _ (by simp)]
    rfl

theorem mget_mset_ne (m : PMap) {k k' : Str} (v : PlayerRecord) (hne : k' ≠ k) :
    mget (mset m k v) k' = mget m k' := by
  rw [mset]
  split
  · clear ‹_›
    induction m with
    | nil => rfl
    | cons e m ih =>
      rw [List.map_cons]
      by_cases he : e.1 = k
      · rw [if_pos he, mget, List.find?_cons_of_neg _ (by simp [Ne.symm hne]), mget,
          List.find?_cons_of_neg _ (by simp [he ▸ Ne.symm hne])]
        exact ih
      · rw [if_neg he]
        by_cases he' : e.1 = k'
        · rw [mget, List.find?_cons_of_pos _ (by simp [he']), mget,
            List.find?_cons_of_pos _ (by simp [he'])]
        · rw [mget, List.find?_cons_of_neg _ (by simp [he']), mget,
            List.find?_cons_of_neg _ (by simp [he'])]
          exact ih
  · rw [mget, List.find?_append, List.find?_cons_of_neg _ (by simp [Ne.symm hne])]
    simp [mget]

theorem keysOf_map_set (m : PMap) (k : Str) (v : PlayerRecord) :
    keysOf (m.map (fun e => if e.1 = k then (k, v) else e)) = keysOf m := by
  rw [keysOf, keysOf, List.map_map]
  refine List.map_congr_left ?_
  intro e he
  by_cases hek : e.1 = k
  · simp [hek]
  · simp [hek]

theorem keysOf_mset_present {m : PMap} {k : Str} (v : PlayerRecord)
    (h : k ∈ keysOf m) : keysOf (mset m k v) = keysOf m := by
  rw [mset, if_pos ((any_key_iff m k).mpr h)]
  exact keysOf_map_set m k v

theorem keysOf_mset_absent {m : PMap} {k : Str} (v : PlayerRecord)
    (h : k ∉ keysOf m) : keysOf (mset m k v) = keysOf m ++ [k] := by
  rw [mset, if_neg (fun hc => h ((any_key_iff m k).mp hc)), keysOf, keysOf, List.map_append]
  rfl

theorem noDupKeys_mset {m : PMap} (k : Str) (v : PlayerRecord)
    (h : NoDupKeys m) : NoDupKeys (mset m k v) := by
  by_cases hk : k ∈ keysOf m
  · rw [NoDupKeys, keysOf_mset_present v hk]
    exact h
  · rw [NoDupKeys, keysOf_mset_absent v hk, List.nodup_append]
    refine ⟨h, List.nodup_singleton k, ?_⟩
    intro a ha hak
    rw [List.mem_singleton] at hak
    exact hk (hak ▸ ha)

theorem pmap_ext : ∀ {m m' : PMap}, NoDupKeys m → keysOf m = keysOf m' →
    (∀ k, mget m k = mget m' k) → m = m' := by
  intro m
  induction m with
  | nil =>
    intro m' hnd hk hget
    rcases m' with _ | ⟨e', m'⟩
    · rfl
    · rw [keysOf, keysOf, List.map_nil, List.map_cons] at hk
      exact absurd hk (by intro hcon; cases hcon)
  | cons e m ih =>
    intro m' hnd hk hget
    rcases m' with _ | ⟨e', m'⟩
    · rw [keysOf, keysOf, List.map_nil, List.map_cons] at hk
      exact absurd hk (by intro hcon; cases hcon)
    · rw [keysOf, List.map_cons, keysOf, List.map_cons] at hk
      injection hk with hk1 hk2
      have hv : e.2 = e'.2 := by
        have h1 : mget (e :: m) e.1 = some e.2 := by
          rw [mget, List.find?_cons_of_pos _ (by simp)]
          rfl
        have h2 : mget (e' :: m') e.1 = some e'.2 := by
          rw [mget, List.find?_cons_of_pos _ (by simp [hk1])]
          rfl
        rw [hget e.1, h2] at h1
        injection h1 with h1
        exact h1.symm
      have hee : e = e' := Prod.ext hk1 hv
      have hndm : NoDupKeys m := by
        rw [NoDupKeys, keysOf, List.map_cons, List.nodup_cons] at hnd
        exact hnd.2
      have hnotin : e.1 ∉ keysOf m := by
        rw [NoDupKeys, keysOf, List.map_cons, List.nodup_cons] at hnd
        exact hnd.1
      have hget' : ∀ k, mget m k = mget m' k := by
        intro k
        by_cases hke : k = e.1
        · rw [hke]
          rw [(mget_eq_none_iff m e.1).mpr hnotin,
            (mget_eq_none_iff m' e.1).mpr (by
              rw [keysOf, ← hk2]
              exact hnotin)]
        · have hne : ¬ e.1 = k := fun h => hke h.symm
          have hne' : ¬ e'.1 = k := fun h => hke (hk1.trans h).symm
          have g1 : mget (e :: m) k = mget m k := by
            rw [mget, List.find?_cons_of_neg _ (by simp [hne])]
            rfl
          have g2 : mget (e' :: m') k = mget m' k := by
            rw [mget, List.find?_cons_of_neg _ (by simp [hne'])]
            rfl
          rw [← g1, ← g2, hget k]
      rw [hee, ih hndm hk2 hget']

theorem mget_eq_some_iff {m : PMap} {k : Str} {v : PlayerRecord} (hm : NoDupKeys m) :
    mget m k = some v ↔ (k, v) ∈ m := by
  constructor
  · exact mget_mem
  · intro h
    induction m with
    | nil => cases h
    | cons e m ih =>
      have hndm : NoDupKeys m := by
        rw [NoDupKeys, keysOf, List.map_cons, List.nodup_cons] at hm
        exact hm.2
      have hnotin : e.1 ∉ keysOf m := by
        rw [NoDupKeys, keysOf, List.map_cons, List.nodup_cons] at hm
        exact hm.1
      rcases List.mem_cons.mp h with rfl | h
      · rw [mget, List.find?_cons_of_pos _ (by simp)]
        rfl
      · by_cases he : e.1 = k
        · exfalso
          apply hnotin
          rw [he, keysOf, List.mem_map]
          exact ⟨(k, v), h, rfl⟩
        · rw [mget, List.find?_cons_of_neg _ (by simp [he])]
          exact ih hndm h

theorem mget_of_perm {m m' : PMap} (hp : m.Perm m') (hm : NoDupKeys m) (k : Str) :
    mget m k = mget m' k := by
  have hm' : NoDupKeys m' := by
    rw [NoDupKeys, keysOf]
    rw [NoDupKeys, keysOf] at hm
    exact (hp.map (fun e => e.1)).nodup_iff.mp hm
  rcases h : mget m k with _ | v
  · rw [mget_eq_none_iff] at h
    rw [(mget_eq_none_iff m' k).mpr (by
      intro hc
      apply h
      rw [keysOf, List.mem_map] at hc
      obtain ⟨e, he, hke⟩ := hc
      rw [keysOf, List.mem_map]
      exact ⟨e, hp.mem_iff.mpr he, hke⟩)]
  · exact ((mget_eq_some_iff hm').mpr (hp.mem_iff.mp ((mget_eq_some_iff hm).mp h))).symm

/-! Characterizing the two merge loops through per-key folds. -/

theorem addFantasy_eq (low : Char → Char) (m : PMap) (row : RawPlayer) :
    addFantasy low m row =
      if (normalizePlayerFromFantasy low row).id = [] ∨
          (normalizePlayerFromFantasy low row).name = [] then m
      else
        mset m (normalizePlayerFromFantasy low row).id
          (stepOpt (mget m (normalizePlayerFromFantasy low row).id)
            (normalizePlayerFromFantasy low row)) := by
  rw [addFantasy]
  by_cases hval : (normalizePlayerFromFantasy low row).id = [] ∨
      (normalizePlayerFromFantasy low row).name = []
  · rw [if_pos hval, if_pos hval]
  · rw [if_neg hval, if_neg hval]
    rcases hget : mget m (normalizePlayerFromFantasy low row).id with _ | prev
    · rw [stepOpt]
    · rw [stepOpt]

theorem addExisting_eq (low : Char → Char) (m : PMap) (p : RawPlayer) :
    addExisting low m p =
      if (normExisting low p).id = [] then m
      else mset m (normExisting low p).id (normExisting low p) := by
  rw [addExisting]

theorem relRows_cons (low : Char → Char) (k : Str) (row : RawPlayer) (B : List RawPlayer) :
    relRows low k (row :: B) =
      if ¬((normalizePlayerFromFantasy low row).id = [] ∨
            (normalizePlayerFromFantasy low row).name = []) ∧
          (normalizePlayerFromFantasy low row).id = k
      then normalizePlayerFromFantasy low row :: relRows low k B
      else relRows low k B := by
  rw [relRows, List.map_cons]
  by_cases h : ¬((normalizePlayerFromFantasy low row).id = [] ∨
      (normalizePlayerFromFantasy low row).name = []) ∧
      (normalizePlayerFromFantasy low row).id = k
  · rw [List.filter_cons_of_pos (by simp only [decide_eq_true_eq]; exact h), if_pos h]
    rfl
  · rw [List.filter_cons_of_neg (by simpa using h), if_neg h]
    rfl

theorem existingRows_cons (low : Char → Char) (k : Str) (p : RawPlayer) (A : List RawPlayer) :
    existingRows low k (p :: A) =
      if ¬(normExisting low p).id = [] ∧ (normExisting low p).id = k
      then normExisting low p :: existingRows low k A
      else existingRows low k A := by
  rw [existingRows, List.map_cons]
  by_cases h : ¬(normExisting low p).id = [] ∧ (normExisting low p).id = k
  · rw [List.filter_cons_of_pos (by simp only [decide_eq_true_eq]; exact h), if_pos h]
    rfl
  · rw [List.filter_cons_of_neg (by simpa using h), if_neg h]
    rfl

theorem lookup_foldF (low : Char → Char) (k : Str) :
    ∀ (B : List RawPlayer) (m : PMap),
      mget (B.foldl (addFantasy low) m) k = perKey (mget m k) (relRows low k B) := by
  intro B
  induction B with
  | nil => intro m; rfl
  | cons row B ih =>
    intro m
    rw [List.foldl_cons, addFantasy_eq, relRows_cons]
    by_cases hval : (normalizePlayerFromFantasy low row).id = [] ∨
        (normalizePlayerFromFantasy low row).name = []
    · rw [if_pos hval, if_neg (fun hc => hc.1 hval)]
      exact ih m
    · rw [if_neg hval]
      by_cases hk : (normalizePlayerFromFantasy low row).id = k
      · rw [if_pos ⟨hval, hk⟩, hk, ih, mget_mset_self]
        rfl
      · rw [if_neg (fun hc => hk hc.2), ih,
          mget_mset_ne m _ (fun h => hk h.symm)]

theorem keysOf_foldF (low : Char → Char) :
    ∀ (B : List RawPlayer) (m : PMap),
      (∀ row ∈ B,
        ¬((normalizePlayerFromFantasy low row).id = [] ∨
            (normalizePlayerFromFantasy low row).name = []) →
        (normalizePlayerFromFantasy low row).id ∈ keysOf m) →
      keysOf (B.foldl (addFantasy low) m) = keysOf m := by
  intro B
  induction B with
  | nil => intro m _; rfl
  | cons row B ih =>
    intro m hmem
    rw [List.foldl_cons, addFantasy_eq]
    by_cases hval : (normalizePlayerFromFantasy low row).id = [] ∨
        (normalizePlayerFromFantasy low row).name = []
    · rw [if_pos hval]
      exact ih m (fun r hr hv => hmem r (List.mem_cons_of_mem row hr) hv)
    · rw [if_neg hval]
      have hin := hmem row (List.mem_cons_self row B) hval
      have hkeys := keysOf_mset_present
        (stepOpt (mget m (normalizePlayerFromFantasy low row).id)
          (normalizePlayerFromFantasy low row)) hin
      rw [ih _ (fun r hr hv => by
        rw [hkeys]
        exact hmem r (List.mem_cons_of_mem row hr) hv), hkeys]

theorem lookup_foldE (low : Char → Char) (k : Str) :
    ∀ (A : List RawPlayer) (m : PMap),
      mget (A.foldl (addExisting low) m) k =
        (existingRows low k A).getLast?.or (mget m k) := by
  intro A
  induction A with
  | nil =>
    intro m
    rw [existingRows]
    simp
  | cons p A ih =>
    intro m
    rw [List.foldl_cons, addExisting_eq, existingRows_cons]
    by_cases hid : (normExisting low p).id = []
    · rw [if_pos hid, if_neg (fun hc => hc.1 hid)]
      exact ih m
    · by_cases hk : (normExisting low p).id = k
      · rw [if_neg hid, if_pos ⟨hid, hk⟩, hk, ih, mget_mset_self]
        rcases hrest : existingRows low k A with _ | ⟨y, t⟩
        · rw [List.getLast?_singleton]
          simp
        · rw [List.getLast?_cons_cons]
          have hsome : (y :: t).getLast?.isSome := by
            rw [List.getLast?_isSome]
            exact List.cons_ne_nil y t
          obtain ⟨z, hz⟩ := Option.isSome_iff_exists.mp hsome
          rw [hz]
          rfl
      · rw [if_neg hid, if_neg (fun hc => hk hc.2), ih,
          mget_mset_ne m _ (fun h => hk h.symm)]

/-! The map invariant is preserved by both merge loops. -/

theorem orDefault_trimmed {s : Str} (d : Str) (hs : Trimmed s) (hd : Trimmed d) :
    Trimmed (orDefault s d) := by
  rw [orDefault]
  split
  · exact hd
  · exact hs

theorem orDefault_ne (s : Str) {d : Str} (hd : d ≠ []) : orDefault s d ≠ [] := by
  rw [orDefault]
  split
  · exact hd
  · assumption

theorem trimmed_NA : Trimmed NA := rfl

theorem trimmed_UNK : Trimmed UNK := rfl

theorem safeStr_trimmed (o : Option Str) : Trimmed (safeStr o) := trim_trim _

theorem goodRec_normExisting (low : Char → Char) (p : RawPlayer)
    (h : (normExisting low p).id ≠ []) : GoodRec low (normExisting low p) := by
  refine ⟨⟨_, rfl⟩, h, safeStr_trimmed _, ⟨?_, ?_⟩, ⟨?_, ?_⟩⟩
  · exact orDefault_trimmed NA (safeStr_trimmed _) trimmed_NA
  · exact orDefault_ne _ (by intro hc; cases hc)
  · exact orDefault_trimmed UNK (safeStr_trimmed _) trimmed_UNK
  · exact orDefault_ne _ (by intro hc; cases hc)

theorem goodRec_normFantasy (low : Char → Char) (row : RawPlayer)
    (h : (normalizePlayerFromFantasy low row).id ≠ []) :
    GoodRec low (normalizePlayerFromFantasy low row) := by
  refine ⟨⟨_, rfl⟩, h, safeStr_trimmed _, ⟨?_, ?_⟩, ⟨?_, ?_⟩⟩
  · exact orDefault_trimmed NA (safeStr_trimmed _) trimmed_NA
  · exact orDefault_ne _ (by intro hc; cases hc)
  · exact orDefault_trimmed UNK (safeStr_trimmed _) trimmed_UNK
  · exact orDefault_ne _ (by intro hc; cases hc)

theorem goodRec_combine {low : Char → Char} {prev next : PlayerRecord}
    (hp : GoodRec low prev) (hn : GoodRec low next) :
    GoodRec low (combine prev next) := by
  obtain ⟨hid, hne, hnm, hpos, hteam⟩ := hp
  obtain ⟨-, -, hnm', hpos', hteam'⟩ := hn
  refine ⟨hid, hne, ?_, ⟨?_, ?_⟩, ⟨?_, ?_⟩⟩
  · show Trimmed (if prev.name = [] then next.name else prev.name)
    split
    · exact hnm'
    · exact hnm
  · show Trimmed (if next.position = NA then prev.position else next.position)
    split
    · exact hpos.1
    · exact hpos'.1
  · show (if next.position = NA then prev.position else next.position) ≠ []
    split
    · exact hpos.2
    · exact hpos'.2
  · show Trimmed (if next.team = UNK then prev.team else next.team)
    split
    · exact hteam.1
    · exact hteam'.1
  · show (if next.team = UNK then prev.team else next.team) ≠ []
    split
    · exact hteam.2
    · exact hteam'.2

theorem mapInv_mset {low : Char → Char} {m : PMap} {k : Str} {v : PlayerRecord}
    (h : MapInv low m) (hkv : k = v.id) (hv : GoodRec low v) : MapInv low (mset m k v) := by
  refine ⟨?_, noDupKeys_mset k v h.2⟩
  intro e he
  rw [mset] at he
  split at he
  · rw [List.mem_map] at he
    obtain ⟨f, hf, hfe⟩ := he
    by_cases hfk : f.1 = k
    · rw [if_pos hfk] at hfe
      rw [← hfe]
      exact ⟨hkv, hv⟩
    · rw [if_neg hfk] at hfe
      exact hfe ▸ h.1 f hf
  · rcases List.mem_append.mp he with he | he
    · exact h.1 e he
    · rw [List.mem_singleton] at he
      rw [he]
      exact ⟨hkv, hv⟩

theorem mapInv_foldE (low : Char → Char) :
    ∀ (A : List RawPlayer) (m : PMap), MapInv low m →
      MapInv low (A.foldl (addExisting low) m) := by
  intro A
  induction A with
  | nil => exact fun m h => h
  | cons p A ih =>
    intro m h
    rw [List.foldl_cons, addExisting_eq]
    by_cases hid : (normExisting low p).id = []
    · rw [if_pos hid]
      exact ih m h
    · rw [if_neg hid]
      exact ih _ (mapInv_mset h rfl (goodRec_normExisting low p hid))

theorem mapInv_foldF (low : Char → Char) :
    ∀ (B : List RawPlayer) (m : PMap), MapInv low m →
      MapInv low (B.foldl (addFantasy low) m) := by
  intro B
  induction B with
  | nil => exact fun m h => h
  | cons row B ih =>
    intro m h
    rw [List.foldl_cons, addFantasy_eq]
    by_cases hval : (normalizePlayerFromFantasy low row).id = [] ∨
        (normalizePlayerFromFantasy low row).name = []
    · rw [if_pos hval]
      exact ih m h
    · rw [if_neg hval]
      have hgood : GoodRec low (normalizePlayerFromFantasy low row) :=
        goodRec_normFantasy low row (fun hc => hval (Or.inl hc))
      rcases hget : mget m (normalizePlayerFromFantasy low row).id with _ | prev
      · exact ih _ (mapInv_mset h rfl hgood)
      · have hprev := h.1 _ (mget_mem hget)
        exact ih _ (mapInv_mset h hprev.1 (goodRec_combine hprev.2 hgood))

/-! Absorption: replaying a batch of rows into the value it produced
changes nothing. -/

theorem combineFold_fields : ∀ (L : List PlayerRecord) (v : PlayerRecord),
    (combineFold v L).id = v.id ∧
    (combineFold v L).name = nameFold v.name (L.map (fun n => n.name)) ∧
    (combineFold v L).position = posFold NA v.position (L.map (fun n => n.position)) ∧
    (combineFold v L).team = posFold UNK v.team (L.map (fun n => n.team)) ∧
    (combineFold v L).minutes = (L.map (fun n => n.minutes)).foldl max v.minutes ∧
    (combineFold v L).goals = (L.map (fun n => n.goals)).foldl max v.goals ∧
    (combineFold v L).assists = (L.map (fun n => n.assists)).foldl max v.assists ∧
    (combineFold v L).shots = (L.map (fun n => n.shots)).foldl max v.shots ∧
    (combineFold v L).shotsOnTarget =
      (L.map (fun n => n.shotsOnTarget)).foldl max v.shotsOnTarget := by
  intro L
  induction L with
  | nil => exact fun v => ⟨rfl, rfl, rfl, rfl, rfl, rfl, rfl, rfl, rfl⟩
  | cons n L ih => exact fun v => ih (combine v n)

theorem nameFold_of_ne {a : Str} (l : List Str) (h : a ≠ []) : nameFold a l = a := by
  induction l with
  | nil => rfl
  | cons y l ih =>
    rw [nameFold, List.foldl_cons, if_neg h, ← nameFold]
    exact ih

theorem nameFold_absorb {l : List Str} (a : Str) (h : ∀ y ∈ l, y ≠ []) :
    nameFold (nameFold a l) l = nameFold a l := by
  by_cases ha : a = []
  · subst ha
    rcases l with _ | ⟨y, l⟩
    · rfl
    · have hy : y ≠ [] := h y (List.mem_cons_self y l)
      have h1 : nameFold [] (y :: l) = y := by
        rw [nameFold, List.foldl_cons, if_pos rfl, ← nameFold]
        exact nameFold_of_ne l hy
      rw [h1, nameFold, List.foldl_cons, if_neg hy, ← nameFold]
      exact nameFold_of_ne l hy
  · rw [nameFold_of_ne l ha, nameFold_of_ne l ha]

theorem posFold_append (d a : Str) (l : List Str) (y : Str) :
    posFold d a (l ++ [y]) = if y = d then posFold d a l else y := by
  rw [posFold, List.foldl_append, List.foldl_cons, List.foldl_nil, ← posFold]

theorem posFold_absorb (d : Str) : ∀ (l : List Str) (a : Str),
    posFold d (posFold d a l) l = posFold d a l := by
  intro l
  induction l using List.reverseRecOn with
  | nil => intro a; rfl
  | append_singleton l y ih =>
    intro a
    have hXa : posFold d a (l ++ [y]) = if y = d then posFold d a l else y :=
      posFold_append d a l y
    by_cases hy : y = d
    · rw [hXa, if_pos hy, posFold_append, if_pos hy, ih]
    · rw [hXa, if_neg hy, posFold_append, if_neg hy]

theorem maxFold_absorb (a : ℚ) (l : List ℚ) :
    l.foldl max (l.foldl max a) = l.foldl max a :=
  foldl_max_eq_self (fun _ hx => mem_le_foldl_max a hx)

theorem perKey_some : ∀ (L : List PlayerRecord) (v : PlayerRecord),
    perKey (some v) L = some (combineFold v L) := by
  intro L
  induction L with
  | nil => exact fun v => rfl
  | cons n L ih => exact fun v => ih (combine v n)

theorem perKey_none_cons (n : PlayerRecord) (L : List PlayerRecord) :
    perKey none (n :: L) = some (combineFold n L) :=
  perKey_some L n

theorem perKey_isSome {L : List PlayerRecord} (o : Option PlayerRecord) (h : L ≠ []) :
    (perKey o L).isSome := by
  rcases L with _ | ⟨n, L⟩
  · exact absurd rfl h
  · rcases o with _ | v
    · rw [perKey_none_cons]
      rfl
    · rw [perKey_some]
      rfl

theorem combineFold_absorb {L : List PlayerRecord} (v : PlayerRecord)
    (hnames : ∀ n ∈ L, n.name ≠ []) :
    combineFold (combineFold v L) L = combineFold v L := by
  have h1 := combineFold_fields L v
  have h2 := combineFold_fields L (combineFold v L)
  refine PlayerRecord.ext ?_ ?_ ?_ ?_ ?_ ?_ ?_ ?_ ?_
  · rw [h2.1, h1.1]
  · rw [h2.2.1, h1.2.1]
    exact nameFold_absorb v.name (fun y hy => by
      rw [List.mem_map] at hy
      obtain ⟨n, hn, rfl⟩ := hy
      exact hnames n hn)
  · rw [h2.2.2.1, h1.2.2.1]
    exact posFold_absorb NA _ v.position
  · rw [h2.2.2.2.1, h1.2.2.2.1]
    exact posFold_absorb UNK _ v.team
  · rw [h2.2.2.2.2.1, h1.2.2.2.2.1]
    exact maxFold_absorb v.minutes _
  · rw [h2.2.2.2.2.2.1, h1.2.2.2.2.2.1]
    exact maxFold_absorb v.goals _
  · rw [h2.2.2.2.2.2.2.1, h1.2.2.2.2.2.2.1]
    exact maxFold_absorb v.assists _
  · rw [h2.2.2.2.2.2.2.2.1, h1.2.2.2.2.2.2.2.1]
    exact maxFold_absorb v.shots _
  · rw [h2.2.2.2.2.2.2.2.2, h1.2.2.2.2.2.2.2.2]
    exact maxFold_absorb v.shotsOnTarget _

theorem combineFold_replay (n : PlayerRecord) (L : List PlayerRecord)
    (hnames : ∀ x ∈ n :: L, x.name ≠ []) :
    combineFold (combineFold n L) (n :: L) = combineFold n L := by
  have hw := combineFold_fields L n
  have hc := combineFold_fields L (combine (combineFold n L) n)
  have hnn : n.name ≠ [] := hnames n (List.mem_cons_self n L)
  have hwname : (combineFold n L).name = n.name := by
    rw [hw.2.1]
    exact nameFold_of_ne _ hnn
  have hwne : (combineFold n L).name ≠ [] := by
    rw [hwname]
    exact hnn
  show combineFold (combine (combineFold n L) n) L = combineFold n L
  refine PlayerRecord.ext ?_ ?_ ?_ ?_ ?_ ?_ ?_ ?_ ?_
  · rw [hc.1]
    rfl
  · rw [hc.2.1]
    have hcn : (combine (combineFold n L) n).name = (combineFold n L).name := by
      show (if (combineFold n L).name = [] then n.name else (combineFold n L).name) =
        (combineFold n L).name
      rw [if_neg hwne]
    rw [hcn, nameFold_of_ne _ hwne]
  · rw [hc.2.2.1]
    by_cases hp : n.position = NA
    · have hcp : (combine (combineFold n L) n).position = (combineFold n L).position := by
        show (if n.position = NA then (combineFold n L).position else n.position) =
          (combineFold n L).position
        rw [if_pos hp]
      rw [hcp, hw.2.2.1]
      exact posFold_absorb NA _ _
    · have hcp : (combine (combineFold n L) n).position = n.position := by
        show (if n.position = NA then (combineFold n L).position else n.position) = n.position
        rw [if_neg hp]
      rw [hcp, hw.2.2.1]
  · rw [hc.2.2.2.1]
    by_cases ht : n.team = UNK
    · have hct : (combine (combineFold n L) n).team = (combineFold n L).team := by
        show (if n.team = UNK then (combineFold n L).team else n.team) =
          (combineFold n L).team
        rw [if_pos ht]
      rw [hct, hw.2.2.2.1]
      exact posFold_absorb UNK _ _
    · have hct : (combine (combineFold n L) n).team = n.team := by
        show (if n.team = UNK then (combineFold n L).team else n.team) = n.team
        rw [if_neg ht]
      rw [hct, hw.2.2.2.1]
  · rw [hc.2.2.2.2.1]
    have hcm : (combine (combineFold n L) n).minutes = (combineFold n L).minutes := by
      show max (combineFold n L).minutes n.minutes = (combineFold n L).minutes
      refine max_eq_left ?_
      rw [hw.2.2.2.2.1]
      exact le_foldl_max_self _ _
    rw [hcm]
    refine foldl_max_eq_self ?_
    intro x hx
    rw [hw.2.2.2.2.1]
    exact mem_le_foldl_max _ hx
  · rw [hc.2.2.2.2.2.1]
    have hcm : (combine (combineFold n L) n).goals = (combineFold n L).goals := by
      show max (combineFold n L).goals n.goals = (combineFold n L).goals
      refine max_eq_left ?_
      rw [hw.2.2.2.2.2.1]
      exact le_foldl_max_self _ _
    rw [hcm]
    refine foldl_max_eq_self ?_
    intro x hx
    rw [hw.2.2.2.2.2.1]
    exact mem_le_foldl_max _ hx
  · rw [hc.2.2.2.2.2.2.1]
    have hcm : (combine (combineFold n L) n).assists = (combineFold n L).assists := by
      show max (combineFold n L).assists n.assists = (combineFold n L).assists
      refine max_eq_left ?_
      rw [hw.2.2.2.2.2.2.1]
      exact le_foldl_max_self _ _
    rw [hcm]
    refine foldl_max_eq_self ?_
    intro x hx
    rw [hw.2.2.2.2.2.2.1]
    exact mem_le_foldl_max _ hx
  · rw [hc.2.2.2.2.2.2.2.1]
    have hcm : (combine (combineFold n L) n).shots = (combineFold n L).shots := by
      show max (combineFold n L).shots n.shots = (combineFold n L).shots
      refine max_eq_left ?_
      rw [hw.2.2.2.2.2.2.2.1]
      exact le_foldl_max_self _ _
    rw [hcm]
    refine foldl_max_eq_self ?_
    intro x hx
    rw [hw.2.2.2.2.2.2.2.1]
    exact mem_le_foldl_max _ hx
  · rw [hc.2.2.2.2.2.2.2.2]
    have hcm : (combine (combineFold n L) n).shotsOnTarget =
        (combineFold n L).shotsOnTarget := by
      show max (combineFold n L).shotsOnTarget n.shotsOnTarget =
        (combineFold n L).shotsOnTarget
      refine max_eq_left ?_
      rw [hw.2.2.2.2.2.2.2.2]
      exact le_foldl_max_self _ _
    rw [hcm]
    refine foldl_max_eq_self ?_
    intro x hx
    rw [hw.2.2.2.2.2.2.2.2]
    exact mem_le_foldl_max _ hx

theorem perKey_absorb {L : List PlayerRecord} (o : Option PlayerRecord)
    (hnames : ∀ n ∈ L, n.name ≠ []) :
    perKey (perKey o L) L = perKey o L := by
  rcases o with _ | v
  · rcases L with _ | ⟨n, L⟩
    · rfl
    · rw [perKey_none_cons, perKey_some]
      rw [combineFold_replay n L hnames]
  · rw [perKey_some, perKey_some]
    rw [combineFold_absorb v hnames]

/-! Re-reading a merged snapshot: normalization is the identity on records
satisfying the map invariant. -/

theorem normE_toRaw (low : Char → Char)
    (hlow : ∀ c, isSlugChar c = true → low c = c)
    {r : PlayerRecord} (hr : GoodRec low r) : normExisting low (toRaw r) = r := by
  obtain ⟨⟨s, hs⟩, hne, hnm, hpos, hteam⟩ := hr
  refine PlayerRecord.ext ?_ ?_ ?_ ?_ rfl rfl rfl rfl rfl
  · show sanitizeId low ((if r.id = [] then some r.name else some r.id).getD []) = r.id
    rw [if_neg hne]
    show sanitizeId low r.id = r.id
    rw [hs]
    exact sanitizeId_idem low hlow s
  · show trim r.name = r.name
    exact hnm
  · show orDefault (trim r.position) NA = r.position
    rw [hpos.1, orDefault, if_neg hpos.2]
  · show orDefault (trim r.team) UNK = r.team
    rw [hteam.1, orDefault, if_neg hteam.2]

theorem foldE_of_fresh (low : Char → Char)
    (hlow : ∀ c, isSlugChar c = true → low c = c) :
    ∀ (O : List PlayerRecord) (m : PMap),
      (∀ r ∈ O, GoodRec low r) →
      (O.map (fun r => r.id)).Nodup →
      (∀ r ∈ O, r.id ∉ keysOf m) →
      (O.map toRaw).foldl (addExisting low) m = m ++ O.map (fun r => (r.id, r)) := by
  intro O
  induction O with
  | nil =>
    intro m _ _ _
    simp
  | cons r O ih =>
    intro m hgood hnodup hfresh
    have hgr := hgood r (List.mem_cons_self r O)
    rw [List.map_cons, List.foldl_cons, addExisting_eq, normE_toRaw low hlow hgr,
      if_neg hgr.2.1]
    have hset : mset m r.id r = m ++ [(r.id, r)] := by
      rw [mset, if_neg (fun hc =>
        hfresh r (List.mem_cons_self r O) ((any_key_iff m r.id).mp hc))]
    have hnodup' : (O.map (fun r => r.id)).Nodup := by
      rw [List.map_cons, List.nodup_cons] at hnodup
      exact hnodup.2
    have hhead : r.id ∉ O.map (fun r => r.id) := by
      rw [List.map_cons, List.nodup_cons] at hnodup
      exact hnodup.1
    have hfresh' : ∀ x ∈ O, x.id ∉ keysOf (m ++ [(r.id, r)]) := by
      intro x hx
      rw [keysOf, List.map_append, List.mem_append]
      rintro (hc | hc)
      · exact hfresh x (List.mem_cons_of_mem r hx) hc
      · rw [List.map_singleton, List.mem_singleton] at hc
        have hc' : x.id = r.id := hc
        exact hhead (hc' ▸ List.mem_map_of_mem (fun r => r.id) hx)
    rw [hset, ih (m ++ [(r.id, r)]) (fun x hx => hgood x (List.mem_cons_of_mem r hx))
      hnodup' hfresh', List.append_assoc]
    rfl

theorem mapInv_self_assoc {low : Char → Char} {m : PMap} (h : MapInv low m) :
    m.map (fun e => (e.2.id, e.2)) = m := by
  rw [show m.map (fun e => (e.2.id, e.2)) = m.map id from
    List.map_congr_left (fun e he => Prod.ext ((h.1 e he).1).symm rfl), List.map_id]

/-- C1: the merge is idempotent: feeding the merged snapshot back in as the
existing player array and merging the same fantasy batch again reproduces
the snapshot exactly, `merge(merge(A, B), B) = merge(A, B)`.  The
hypotheses state that `toLowerCase` fixes the characters `sanitizeId`
keeps, and that the `localeCompare` comparator is transitive and total. -/
theorem mergePlayers_idempotent (low : Char → Char) (le : Str → Str → Bool)
    (hlow : ∀ c, isSlugChar c = true → low c = c)
    (htrans : ∀ a b c : Str, le a b = true → le b c = true → le a c = true)
    (htotal : ∀ a b : Str, (le a b || le b a) = true)
    (A B : List RawPlayer) :
    mergePlayers low le ((mergePlayers low le A B).map toRaw) B =
      mergePlayers low le A B := by
  have hinv0 : MapInv low (A.foldl (addExisting low) []) :=
    mapInv_foldE low A [] ⟨fun e he => absurd he (List.not_mem_nil e), List.nodup_nil⟩
  have hinv1 : MapInv low (B.foldl (addFantasy low) (A.foldl (addExisting low) [])) :=
    mapInv_foldF low B _ hinv0
  rw [mergePlayers, mergePlayers]
  set m1 := B.foldl (addFantasy low) (A.foldl (addExisting low) []) with hm1def
  set O1 := (m1.map (fun e => e.2)).mergeSort (fun a b => le a.name b.name) with hO1def
  have hperm1 : O1.Perm (m1.map (fun e => e.2)) := by
    rw [hO1def]
    exact List.mergeSort_perm _ _
  have hgood : ∀ r ∈ O1, GoodRec low r := by
    intro r hr
    have hr' : r ∈ m1.map (fun e => e.2) := hperm1.mem_iff.mp hr
    rw [List.mem_map] at hr'
    obtain ⟨e, he, rfl⟩ := hr'
    exact (hinv1.1 e he).2
  have hkeysvals : m1.map (fun e => e.2.id) = keysOf m1 :=
    List.map_congr_left (fun e he => ((hinv1.1 e he).1).symm)
  have hids : (O1.map (fun r => r.id)).Nodup := by
    refine ((hperm1.map (fun r => r.id)).nodup_iff).mpr ?_
    rw [List.map_map]
    have hmm : (m1.map fun e => (e.2).id).Nodup := by
      rw [hkeysvals]
      exact hinv1.2
    exact hmm
  have hsorted : O1.Pairwise (fun a b => le a.name b.name = true) := by
    rw [hO1def]
    exact @List.sorted_mergeSort PlayerRecord (fun a b => le a.name b.name)
      (fun a b c hab hbc => htrans a.name b.name c.name hab hbc)
      (fun a b => htotal a.name b.name) (m1.map (fun e => e.2))
  set m2i := (O1.map toRaw).foldl (addExisting low) [] with hm2idef
  have hm2i : m2i = O1.map (fun r => (r.id, r)) := by
    rw [hm2idef]
    have hff := foldE_of_fresh low hlow O1 [] hgood hids
      (fun r hr => by rw [keysOf]; simp)
    simpa using hff
  have hnd2i : NoDupKeys m2i := by
    rw [NoDupKeys, hm2i, keysOf, List.map_map]
    exact hids
  have hpermi : m2i.Perm m1 := by
    rw [hm2i]
    have heq : (m1.map (fun e => e.2)).map (fun r => (r.id, r)) = m1 := by
      rw [List.map_map]
      exact mapInv_self_assoc hinv1
    exact heq ▸ hperm1.map (fun r => (r.id, r))
  have hlooki : ∀ k, mget m2i k = mget m1 k := fun k => mget_of_perm hpermi hnd2i k
  have hnames : ∀ (k : Str), ∀ n ∈ relRows low k B, n.name ≠ [] := by
    intro k n hn
    rw [relRows, List.mem_filter] at hn
    exact fun hc => (of_decide_eq_true hn.2).1 (Or.inr hc)
  have habs : ∀ k, perKey (mget m1 k) (relRows low k B) = mget m1 k := by
    intro k
    have h1 : mget m1 k =
        perKey (mget (A.foldl (addExisting low) []) k) (relRows low k B) := by
      rw [hm1def]
      exact lookup_foldF low k B _
    rw [h1]
    exact perKey_absorb _ (hnames k)
  have hvalid : ∀ row ∈ B,
      ¬((normalizePlayerFromFantasy low row).id = [] ∨
          (normalizePlayerFromFantasy low row).name = []) →
      (normalizePlayerFromFantasy low row).id ∈ keysOf m2i := by
    intro row hrow hval
    have hmem : normalizePlayerFromFantasy low row ∈
        relRows low (normalizePlayerFromFantasy low row).id B := by
      rw [relRows, List.mem_filter]
      exact ⟨List.mem_map_of_mem _ hrow, decide_eq_true ⟨hval, rfl⟩⟩
    have hne : relRows low (normalizePlayerFromFantasy low row).id B ≠ [] := by
      intro hc
      rw [hc] at hmem
      cases hmem
    have hsome : (mget m1 (normalizePlayerFromFantasy low row).id).isSome := by
      have h1 : mget m1 (normalizePlayerFromFantasy low row).id =
          perKey (mget (A.foldl (addExisting low) [])
            (normalizePlayerFromFantasy low row).id)
            (relRows low (normalizePlayerFromFantasy low row).id B) := by
        rw [hm1def]
        exact lookup_foldF low _ B _
      rw [h1]
      exact perKey_isSome _ hne
    by_contra hc
    have hnone : mget m1 (normalizePlayerFromFantasy low row).id = none := by
      rw [← hlooki]
      exact (mget_eq_none_iff _ _).mpr hc
    rw [hnone] at hsome
    cases hsome
  have hkeys2 : keysOf (B.foldl (addFantasy low) m2i) = keysOf m2i :=
    keysOf_foldF low B m2i hvalid
  have hnd2 : NoDupKeys (B.foldl (addFantasy low) m2i) := by
    rw [NoDupKeys, hkeys2]
    exact hnd2i
  have hlook2 : ∀ k, mget (B.foldl (addFantasy low) m2i) k = mget m2i k := by
    intro k
    rw [lookup_foldF low k B m2i, hlooki k, habs k, ← hlooki k]
  have hm2 : B.foldl (addFantasy low) m2i = m2i := pmap_ext hnd2 hkeys2 hlook2
  rw [hm2, hm2i, List.map_map]
  have hO1id : O1.map ((fun (e : Str × PlayerRecord) => e.2) ∘ (fun r => (r.id, r))) = O1 := by
    rw [show ((fun (e : Str × PlayerRecord) => e.2) ∘ (fun r => (r.id, r))) =
      (id : PlayerRecord → PlayerRecord) from rfl, List.map_id]
  rw [hO1id]
  exact List.mergeSort_of_sorted hsorted

/-- Witness for C1 at a concrete lower-casing function, comparator and
input (the spec's Kane example). -/
theorem mergePlayers_idempotent_witness :
    mergePlayers (fun c => c) (fun a b => decide (a ≤ b))
        ((mergePlayers (fun c => c) (fun a b => decide (a ≤ b))
            [kaneExisting] [kaneIncoming]).map toRaw)
        [kaneIncoming] =
      mergePlayers (fun c => c) (fun a b => decide (a ≤ b))
        [kaneExisting] [kaneIncoming] :=
  mergePlayers_idempotent (fun c => c) (fun a b => decide (a ≤ b))
    (fun _ _ => rfl)
    (fun a b c hab hbc =>
      decide_eq_true (le_trans (of_decide_eq_true hab) (of_decide_eq_true hbc)))
    (fun a b => by rcases le_total a b with h | h <;> simp [h])
    [kaneExisting] [kaneIncoming]

/-- C2: when a record with identity slug `k` appears in both the existing
set (as `e`, the last existing row with that id) and the incoming batch (as
the single valid row `r`), the merged record at `k` takes the maximum — not
the sum — of each numeric counter, keeps the prior name whenever it is
non-empty, and keeps the prior position/team unless the incoming value is
not the "N/A"/"Unknown" default sentinel. -/
theorem mergePlayers_max_policy (low : Char → Char) (le : Str → Str → Bool)
    (A B : List RawPlayer) (k : Str) (e r : PlayerRecord)
    (he : existingAt low k A = some e)
    (hr : relRows low k B = [r]) :
    ∃ p ∈ mergePlayers low le A B,
      p.id = k ∧
      p.minutes = max e.minutes r.minutes ∧
      p.goals = max e.goals r.goals ∧
      p.assists = max e.assists r.assists ∧
      p.shots = max e.shots r.shots ∧
      p.shotsOnTarget = max e.shotsOnTarget r.shotsOnTarget ∧
      p.name = (if e.name = [] then r.name else e.name) ∧
      p.position = (if r.position = NA then e.position else r.position) ∧
      p.team = (if r.team = UNK then e.team else r.team) := by
  have hm0 : mget (A.foldl (addExisting low) []) k = some e := by
    rw [lookup_foldE low k A []]
    rw [existingAt] at he
    rw [he]
    rfl
  have hm1 : mget (B.foldl (addFantasy low) (A.foldl (addExisting low) [])) k =
      some (combine e r) := by
    rw [lookup_foldF low k B _, hm0, hr]
    rfl
  have hO : combine e r ∈ mergePlayers low le A B := by
    rw [mergePlayers]
    refine (List.mergeSort_perm _ _).mem_iff.mpr ?_
    exact List.mem_map_of_mem (fun e => e.2) (mget_mem hm1)
  have hek : e.id = k := by
    have hee : e ∈ existingRows low k A := by
      refine List.mem_of_getLast?_eq_some ?_
      rw [existingAt] at he
      exact he
    rw [existingRows, List.mem_filter] at hee
    exact (of_decide_eq_true hee.2).2
  exact ⟨combine e r, hO, hek, rfl, rfl, rfl, rfl, rfl, rfl, rfl, rfl⟩

/-- Witness for C2: the spec's worked Kane scenario — existing
minutes 900, goals 10, assists 2, shots 30, on-target 15 merged with
incoming 950/9/3/28/16 yields 950/10/3/30/16, the field-wise maxima. -/
theorem mergePlayers_max_policy_witness :
    ∃ p ∈ mergePlayers (fun c => c) (fun a b => decide (a ≤ b))
        [kaneExisting] [kaneIncoming],
      p.id = "kane".toList ∧ p.minutes = 950 ∧ p.goals = 10 ∧ p.assists = 3 ∧
      p.shots = 30 ∧ p.shotsOnTarget = 16 := by
  obtain ⟨p, hp, hid, hmin, hg, ha, hs, hsot, -, -, -⟩ :=
    mergePlayers_max_policy (fun c => c) (fun a b => decide (a ≤ b))
      [kaneExisting] [kaneIncoming] ("kane".toList)
      (normExisting (fun c => c) kaneExisting)
      (normalizePlayerFromFantasy (fun c => c) kaneIncoming)
      (by decide) (by decide)
  refine ⟨p, hp, hid, ?_, ?_, ?_, ?_, ?_⟩
  · rw [hmin]
    decide
  · rw [hg]
    decide
  · rw [ha]
    decide
  · rw [hs]
    decide
  · rw [hsot]
    decide

end PlayersB
